import Mathlib

/-!
Shallow embedding of the Grammar Analysis Engine
(`src/services/grammarAnalysis.ts` of the antlr4-ide repository) in Lean 4,
together with theorems settling the frozen claims about its specification.

Strings are modelled as `List Char` (JavaScript strings are sequences of
UTF-16 code units; all inputs relevant to the claims are ASCII, where a
code unit coincides with `Char.toNat`).  JavaScript numbers that stay
integral are modelled as `Nat`/`Int` with explicit wrapping where the code
relies on 32-bit semantics.  The regex-based scanners of the source are
translated into deterministic character scanners: for every pattern used by
the code, the greedy/lazy sub-expressions are separated by disjoint
character classes, so maximal-munch scanning coincides with the regex
engine's backtracking search.  Scanning loops whose recursion is not
structural take an explicit fuel argument, always called with an
input-length bound that provably dominates the number of steps.
-/

namespace GrammarAnalysis

/-- Convert a Lean string literal to the `List Char` representation. -/
def strL (s : String) : List Char := s.data

/-- Single-quote character (avoids quote literals in the development). -/
def quoteS : Char := Char.ofNat 39

/-- Double-quote character. -/
def quoteD : Char := Char.ofNat 34

/-- Backslash character. -/
def backslashC : Char := Char.ofNat 92

/-- Dollar character. -/
def dollarC : Char := Char.ofNat 36

/-- JavaScript `\s` restricted to the ASCII range (space, tab, newline,
carriage return, vertical tab, form feed).  All grammar inputs considered
here are ASCII. -/
def isSpaceJS (c : Char) : Bool :=
  c == ' ' || c == '\t' || c == '\n' || c == '\r' ||
  c == Char.ofNat 11 || c == Char.ofNat 12

/-- Regex class `[A-Z]`. -/
def isUpperAZ (c : Char) : Bool := 65 ≤ c.toNat && c.toNat ≤ 90

/-- Regex class `[a-z]`. -/
def isLowerAZ (c : Char) : Bool := 97 ≤ c.toNat && c.toNat ≤ 122

/-- Regex class `[0-9]`. -/
def isDigitC (c : Char) : Bool := 48 ≤ c.toNat && c.toNat ≤ 57

/-- Regex class `[a-zA-Z_]` (identifier start). -/
def isIdentStart (c : Char) : Bool := isUpperAZ c || isLowerAZ c || c == '_'

/-- Regex class `[a-zA-Z0-9_]` (identifier continuation / word char). -/
def isIdentChar (c : Char) : Bool := isIdentStart c || isDigitC c

/-- Regex class `[a-zA-Z0-9_:]` used for `@header`-style block names. -/
def isAtNameChar (c : Char) : Bool := isIdentChar c || c == ':'

/-- Strip a literal prefix, returning the remainder on success
(the scanner counterpart of matching a literal in a regex). -/
def dropLit : List Char → List Char → Option (List Char)
  | [], l => some l
  | _ :: _, [] => none
  | p :: ps, c :: rest => if p = c then dropLit ps rest else none

/-- JavaScript `String.prototype.toLowerCase` on ASCII input. -/
def lowerStr (l : List Char) : List Char := l.map Char.toLower

/-- First pass of `removeComments`: the global replacement of `//[^\n]*`
by the empty string.  The `Bool` state records whether the scanner is
inside a line comment (the terminating newline is kept). -/
def removeLineCommentsAux : Bool → List Char → List Char
  | _, [] => []
  | true, c :: rest =>
      if c = '\n' then '\n' :: removeLineCommentsAux false rest
      else removeLineCommentsAux true rest
  | false, '/' :: '/' :: rest => removeLineCommentsAux true rest
  | false, c :: rest => c :: removeLineCommentsAux false rest

def removeLineComments (l : List Char) : List Char := removeLineCommentsAux false l

/-- Does the text contain the closing delimiter of a block comment? -/
def hasStarSlash : List Char → Bool
  | [] => false
  | [_] => false
  | c :: d :: rest => (c = '*' && d = '/') || hasStarSlash (d :: rest)

/-- Drop everything up to and including the first closing delimiter. -/
def dropThroughClose : List Char → List Char
  | [] => []
  | [_] => []
  | c :: d :: rest => if c = '*' && d = '/' then rest else dropThroughClose (d :: rest)

/-- Second pass of `removeComments`: the global replacement of the lazy
pattern matching a block comment.  The pattern requires a closing
delimiter, so an opener with no closing delimiter anywhere after it is
left in the text unchanged (and nothing after it can match either, since
a later match would also need a closing delimiter). -/
def removeBlockCommentsAux : Nat → List Char → List Char
  | 0, l => l
  | _ + 1, [] => []
  | _ + 1, [c] => [c]
  | fuel + 1, c :: d :: rest =>
      if c = '/' && d = '*' then
        if hasStarSlash rest then removeBlockCommentsAux fuel (dropThroughClose rest)
        else c :: d :: rest
      else c :: removeBlockCommentsAux fuel (d :: rest)

def removeBlockComments (l : List Char) : List Char :=
  removeBlockCommentsAux (l.length + 1) l

/-- `removeComments` from the source: line comments are removed first,
then block comments. -/
def removeComments (l : List Char) : List Char :=
  removeBlockComments (removeLineComments l)

/-- `countAlternatives` from the source: character scan of the rule text
tracking quoted strings (escape-aware via the previous character) and
parenthesis depth; a `|` is counted only at depth zero outside strings.
The depth is a JavaScript number and may go negative, hence `Int`. -/
def countAltsAux : Option Char → Int → Bool → Char → List Char → Nat
  | _, _, _, _, [] => 0
  | prev, depth, inString, sc, c :: rest =>
      if (c = quoteD ∨ c = quoteS) ∧ prev ≠ some backslashC then
        if !inString then countAltsAux (some c) depth true c rest
        else if c = sc then countAltsAux (some c) depth false sc rest
        else countAltsAux (some c) depth inString sc rest
      else if inString then countAltsAux (some c) depth inString sc rest
      else
        let depth2 := if c = '(' then depth + 1 else if c = ')' then depth - 1 else depth
        (if c = '|' ∧ depth2 = 0 then 1 else 0) + countAltsAux (some c) depth2 inString sc rest

def countAlternatives (ruleText : List Char) : Nat :=
  1 + countAltsAux none 0 false ' ' ruleText

/-- Modelled from the claim wording (refinement comparison only): the
count of alternatives where a `|` is additionally ignored inside nested
brackets and braces, not only parentheses. -/
def countAltsClaimAux : Option Char → Int → Bool → Char → List Char → Nat
  | _, _, _, _, [] => 0
  | prev, depth, inString, sc, c :: rest =>
      if (c = quoteD ∨ c = quoteS) ∧ prev ≠ some backslashC then
        if !inString then countAltsClaimAux (some c) depth true c rest
        else if c = sc then countAltsClaimAux (some c) depth false sc rest
        else countAltsClaimAux (some c) depth inString sc rest
      else if inString then countAltsClaimAux (some c) depth inString sc rest
      else
        let depth2 :=
          if c = '(' ∨ c = '[' ∨ c = '{' then depth + 1
          else if c = ')' ∨ c = ']' ∨ c = '}' then depth - 1
          else depth
        (if c = '|' ∧ depth2 = 0 then 1 else 0) + countAltsClaimAux (some c) depth2 inString sc rest

def countAlternativesClaim (ruleText : List Char) : Nat :=
  1 + countAltsClaimAux none 0 false ' ' ruleText

/-- The characters of the rule text lying at parenthesis depth zero
outside string literals (same scanning state as `countAlternatives`);
used to state the amended alternative-counting claim independently. -/
def topLevelCharsAux : Option Char → Int → Bool → Char → List Char → List Char
  | _, _, _, _, [] => []
  | prev, depth, inString, sc, c :: rest =>
      if (c = quoteD ∨ c = quoteS) ∧ prev ≠ some backslashC then
        if !inString then topLevelCharsAux (some c) depth true c rest
        else if c = sc then topLevelCharsAux (some c) depth false sc rest
        else topLevelCharsAux (some c) depth inString sc rest
      else if inString then topLevelCharsAux (some c) depth inString sc rest
      else
        let depth2 := if c = '(' then depth + 1 else if c = ')' then depth - 1 else depth
        (if depth2 = 0 then [c] else []) ++ topLevelCharsAux (some c) depth2 inString sc rest

def topLevelChars (ruleText : List Char) : List Char :=
  topLevelCharsAux none 0 false ' ' ruleText

/-! Header-block removal (`removeHeaderBlocks` and `removeBlock`). -/

/-- Match the grammar-declaration pattern at the head of the text:
one of the three keyword alternatives, then whitespace, an identifier and
a terminating semicolon.  Returns the remainder after the match. -/
def matchGrammarDeclTail (l : List Char) : Option (List Char) :=
  match l with
  | c :: rest =>
      if isSpaceJS c then
        match rest.dropWhile isSpaceJS with
        | d :: r2 =>
            if isIdentStart d then
              match (r2.dropWhile isIdentChar).dropWhile isSpaceJS with
              | ';' :: r3 => some r3
              | _ => none
            else none
        | [] => none
      else none
  | [] => none

def matchGrammarDeclFrom (l : List Char) : Option (List Char) :=
  match dropLit (strL "grammar") l with
  | some r => matchGrammarDeclTail r
  | none =>
      let lexerAlt :=
        match dropLit (strL "lexer") l with
        | some r =>
            match r with
            | c :: rest =>
                if isSpaceJS c then
                  match dropLit (strL "grammar") (rest.dropWhile isSpaceJS) with
                  | some r2 => matchGrammarDeclTail r2
                  | none => none
                else none
            | [] => none
        | none => none
      match lexerAlt with
      | some r => some r
      | none =>
          match dropLit (strL "parser") l with
          | some r =>
              match r with
              | c :: rest =>
                  if isSpaceJS c then
                    match dropLit (strL "grammar") (rest.dropWhile isSpaceJS) with
                    | some r2 => matchGrammarDeclTail r2
                    | none => none
                  else none
              | [] => none
          | none => none

/-- Global replacement of the grammar-declaration pattern. -/
def replaceGrammarDeclAux : Nat → List Char → List Char
  | 0, l => l
  | _ + 1, [] => []
  | fuel + 1, c :: rest =>
      match matchGrammarDeclFrom (c :: rest) with
      | some after => replaceGrammarDeclAux fuel after
      | none => c :: replaceGrammarDeclAux fuel rest

def replaceGrammarDecl (l : List Char) : List Char :=
  replaceGrammarDeclAux (l.length + 1) l

/-- `removeBlock`: skip characters until the running brace count returns
to zero; the closing brace is consumed.  The count starts at one (the
opening brace was already consumed by the start pattern). -/
def skipBalanced (count : Nat) : List Char → List Char
  | [] => []
  | c :: rest =>
      if c = '{' then skipBalanced (count + 1) rest
      else if c = '}' then
        if count ≤ 1 then rest else skipBalanced (count - 1) rest
      else skipBalanced count rest

/-- Match `kw` followed by optional whitespace and an opening brace at the
head of the text; returns the remainder after the brace. -/
def matchBlockStartFrom (kw : List Char) (l : List Char) : Option (List Char) :=
  match dropLit kw l with
  | some r =>
      match r.dropWhile isSpaceJS with
      | '{' :: r2 => some r2
      | _ => none
  | none => none

/-- One iteration of the `removeBlock` loop: find the first occurrence of
the start pattern and splice out the block (up to the balancing brace, or
to the end of the input when unbalanced). -/
def removeBlockOnce (kw : List Char) : Nat → List Char → Option (List Char)
  | 0, _ => none
  | _ + 1, [] => none
  | fuel + 1, c :: rest =>
      match matchBlockStartFrom kw (c :: rest) with
      | some afterBrace => some (skipBalanced 1 afterBrace)
      | none => (removeBlockOnce kw fuel rest).map (c :: ·)

/-- The `removeBlock` while-loop: after each splice the search restarts
from the beginning of the modified text, exactly as the source resets the
regex state.  Every successful iteration removes at least the start
pattern, so the input length bounds the number of iterations. -/
def removeBlockLoop (kw : List Char) : Nat → List Char → List Char
  | 0, l => l
  | fuel + 1, l =>
      match removeBlockOnce kw (l.length + 1) l with
      | some l2 => removeBlockLoop kw fuel l2
      | none => l

def removeBlock (kw : List Char) (l : List Char) : List Char :=
  removeBlockLoop kw (l.length + 1) l

/-- Match an `@name { ... }` action block at the head of the text
(the bracketed body may not contain a closing brace). -/
def matchAtBlockFrom (l : List Char) : Option (List Char) :=
  match l with
  | '@' :: c :: rest =>
      if isIdentStart c then
        match (rest.dropWhile isAtNameChar).dropWhile isSpaceJS with
        | '{' :: r2 =>
            match r2.dropWhile (· != '}') with
            | '}' :: r3 => some r3
            | _ => none
        | _ => none
      else none
  | _ => none

def replaceAtBlocksAux : Nat → List Char → List Char
  | 0, l => l
  | _ + 1, [] => []
  | fuel + 1, c :: rest =>
      match matchAtBlockFrom (c :: rest) with
      | some after => replaceAtBlocksAux fuel after
      | none => c :: replaceAtBlocksAux fuel rest

def replaceAtBlocks (l : List Char) : List Char :=
  replaceAtBlocksAux (l.length + 1) l

/-- Match an import statement at the head of the text: the keyword, at
least one whitespace character, at least one further character before the
first semicolon, and the semicolon itself. -/
def matchImportFrom (l : List Char) : Option (List Char) :=
  match dropLit (strL "import") l with
  | some r =>
      match r with
      | c :: rest =>
          if isSpaceJS c then
            match rest.dropWhile (· != ';') with
            | ';' :: r2 => if rest.takeWhile (· != ';') ≠ [] then some r2 else none
            | _ => none
          else none
      | [] => none
  | none => none

def replaceImportsAux : Nat → List Char → List Char
  | 0, l => l
  | _ + 1, [] => []
  | fuel + 1, c :: rest =>
      match matchImportFrom (c :: rest) with
      | some after => replaceImportsAux fuel after
      | none => c :: replaceImportsAux fuel rest

def replaceImports (l : List Char) : List Char :=
  replaceImportsAux (l.length + 1) l

/-- Match a mode declaration (`mode NAME ;`) at the head of the text;
only attempted at line starts. -/
def matchModeFrom (l : List Char) : Option (List Char) :=
  match dropLit (strL "mode") l with
  | some r =>
      match r with
      | c :: rest =>
          if isSpaceJS c then
            match rest.dropWhile isSpaceJS with
            | d :: r2 =>
                if isIdentStart d then
                  match (r2.dropWhile isIdentChar).dropWhile isSpaceJS with
                  | ';' :: r3 => some r3
                  | _ => none
                else none
            | [] => none
          else none
      | [] => none
  | none => none

/-- Global multiline replacement of mode declarations: the pattern is
anchored at line starts of the text being scanned. -/
def replaceModeDeclsAux : Nat → Bool → List Char → List Char
  | 0, _, l => l
  | _ + 1, _, [] => []
  | fuel + 1, atStart, c :: rest =>
      if atStart then
        match matchModeFrom (c :: rest) with
        | some after => replaceModeDeclsAux fuel false after
        | none => c :: replaceModeDeclsAux fuel (c = '\n') rest
      else c :: replaceModeDeclsAux fuel (c = '\n') rest

def replaceModeDecls (l : List Char) : List Char :=
  replaceModeDeclsAux (l.length + 1) true l

/-- `removeHeaderBlocks` from the source, applying the passes in the
source's order. -/
def removeHeaderBlocks (content : List Char) : List Char :=
  let r := replaceGrammarDecl content
  let r := removeBlock (strL "options") r
  let r := removeBlock (strL "tokens") r
  let r := replaceAtBlocks r
  let r := replaceImports r
  let r := removeBlock (strL "channels") r
  replaceModeDecls r

/-! Rule extraction (`parseGrammar` and its helpers). -/

/-- A raw regex match of a rule pattern: the captured name and body. -/
structure RawMatch where
  name : List Char
  body : List Char
deriving DecidableEq, Repr

/-- Match the `fragment NAME : body ;` pattern at the head of the text,
returning the match and the remainder after the terminating semicolon.
The lazy body capture extends to the first semicolon. -/
def fragMatchFrom (l : List Char) : Option (RawMatch × List Char) :=
  match dropLit (strL "fragment") l with
  | none => none
  | some r =>
      match r with
      | c :: rest =>
          if isSpaceJS c then
            match rest.dropWhile isSpaceJS with
            | d :: r2 =>
                if isUpperAZ d then
                  let name := d :: r2.takeWhile isIdentChar
                  match (r2.dropWhile isIdentChar).dropWhile isSpaceJS with
                  | ':' :: r3 =>
                      match r3.dropWhile (· != ';') with
                      | ';' :: r4 => some (⟨name, r3.takeWhile (· != ';')⟩, r4)
                      | _ => none
                  | _ => none
                else none
            | [] => none
          else none
      | [] => none

/-- Global scan for fragment matches: the pattern may start at any
position; after a match the scan resumes after its semicolon. -/
def fragScan : Nat → List Char → List RawMatch
  | 0, _ => []
  | _ + 1, [] => []
  | fuel + 1, c :: rest =>
      match fragMatchFrom (c :: rest) with
      | some (m, after) => m :: fragScan fuel after
      | none => fragScan fuel rest

/-- Match the anchored rule pattern from a candidate position (position
zero, or a newline character which the anchor consumes as part of the
match).  `first` selects the character class of the rule-name's first
letter (uppercase for lexer rules, lowercase for parser rules). -/
def ruleMatchFrom (first : Char → Bool) (l : List Char) : Option (RawMatch × List Char) :=
  match l.dropWhile isSpaceJS with
  | c :: r =>
      if first c then
        let name := c :: r.takeWhile isIdentChar
        match (r.dropWhile isIdentChar).dropWhile isSpaceJS with
        | ':' :: r2 =>
            match r2.dropWhile (· != ';') with
            | ';' :: r3 => some (⟨name, r2.takeWhile (· != ';')⟩, r3)
            | _ => none
        | _ => none
      else none
  | [] => none

/-- Position the scan at the next newline character (the only positions,
other than the start of the input, where the anchored pattern can begin). -/
def seekNewline (l : List Char) : List Char := l.dropWhile (· != '\n')

/-- Global scan for anchored rule matches.  The first attempt is at the
start of the input; every later attempt is at a newline character at or
after the end of the previous match. -/
def ruleScan (first : Char → Bool) : Nat → List Char → List RawMatch
  | 0, _ => []
  | fuel + 1, l =>
      match ruleMatchFrom first l with
      | some (m, after) => m :: ruleScan first fuel (seekNewline after)
      | none =>
          match l with
          | [] => []
          | _ :: rest => ruleScan first fuel (seekNewline rest)

/-- `getLineNumber`: 1-based count of newlines before the position. -/
def getLineNumber (content : List Char) (pos : Nat) : Nat :=
  1 + (content.take pos).count '\n'

/-- Largest index of a newline at or before `start`, if any
(`String.prototype.lastIndexOf` with a clamped from-index). -/
def lastNewlineLE (content : List Char) (start : Nat) : Option Nat :=
  match (((content.take (start + 1)).enum).filter (fun p => p.2 = '\n')).getLast? with
  | some p => some p.1
  | none => none

/-- `getColumn`: offset from the preceding newline.  The source computes
`pos - content.lastIndexOf(newline, pos - 1) - 1`; a from-index of `-1`
is clamped to zero, which coincides with truncated subtraction on `Nat`. -/
def getColumn (content : List Char) (pos : Nat) : Nat :=
  match lastNewlineLE content (pos - 1) with
  | some idx => pos - idx - 1
  | none => pos

/-- `String.prototype.indexOf` for a substring pattern. -/
def indexOfSubstrAux (pat : List Char) : Nat → Nat → List Char → Option Nat
  | 0, _, _ => none
  | _ + 1, i, [] => if pat = [] then some i else none
  | fuel + 1, i, c :: rest =>
      if (dropLit pat (c :: rest)).isSome then some i
      else indexOfSubstrAux pat fuel (i + 1) rest

def indexOfSubstr (content pat : List Char) : Option Nat :=
  indexOfSubstrAux pat (content.length + 1) 0 content

/-- `String.prototype.indexOf` for a single character with a from-index. -/
def indexOfCharFrom (content : List Char) (ch : Char) (start : Nat) : Option Nat :=
  match (content.drop start).takeWhile (· != ch) with
  | found =>
      if start + found.length < content.length then some (start + found.length) else none

/-- Does `name` followed by optional whitespace and a colon start here? -/
def matchNameColon (name : List Char) (l : List Char) : Bool :=
  match dropLit name l with
  | some r =>
      match r.dropWhile isSpaceJS with
      | ':' :: _ => true
      | _ => false
  | none => false

/-- `findRulePosition`: leftmost match of the name preceded by a line
start, newline or whitespace character and followed by optional
whitespace and a colon; the returned index points at the name itself. -/
def findRulePositionAux (name : List Char) : List Char → Nat → Bool → Option Nat
  | [], _, _ => none
  | c :: rest, i, lineStart =>
      if lineStart ∧ matchNameColon name (c :: rest) then some i
      else if isSpaceJS c ∧ matchNameColon name rest then some (i + 1)
      else findRulePositionAux name rest (i + 1) (c = '\n')

def findRulePosition (content name : List Char) : Option Nat :=
  findRulePositionAux name content 0 true

/-- Rule classification from the source's type union. -/
inductive RuleType
  | parser
  | lexer
  | fragment
deriving DecidableEq, Repr

instance : BEq RuleType := ⟨fun a b => decide (a = b)⟩

/-- `RuleInfo` from the source.  Positions are recomputed against the
original (uncleaned) content exactly as the source does. -/
structure RuleInfo where
  name : List Char
  type : RuleType
  line : Nat
  column : Nat
  endLine : Nat
  endColumn : Nat
  text : List Char
  alternativeCount : Nat
  references : List (List Char)
  referencedBy : List (List Char)
deriving DecidableEq, Repr

/-- JavaScript `String.prototype.trim` (ASCII whitespace). -/
def trimL (l : List Char) : List Char :=
  ((l.dropWhile isSpaceJS).reverse.dropWhile isSpaceJS).reverse

/-- Assemble a `RuleInfo` from a match, recovering positions in the
original content (`originalPos` is the location of the rule name there,
`none` when the textual search failed, mirroring the sentinel `-1`). -/
def mkRuleInfo (content : List Char) (rtype : RuleType) (originalPos : Option Nat)
    (name ruleText : List Char) : RuleInfo :=
  let lineNumber := match originalPos with
    | some p => getLineNumber content p
    | none => 1
  let column := match originalPos with
    | some p => getColumn content p
    | none => 0
  let endPos := indexOfCharFrom content ';'
    (match originalPos with
     | some p => p + name.length
     | none => name.length - 1)
  let endLine := match endPos with
    | some e => getLineNumber content e
    | none => lineNumber
  let endColumn := match endPos with
    | some e => getColumn content e + 1
    | none => ruleText.length
  { name := name, type := rtype, line := lineNumber, column := column,
    endLine := endLine, endColumn := endColumn, text := trimL ruleText,
    alternativeCount := countAlternatives ruleText,
    references := [], referencedBy := [] }

/-- ANTLR keyword list from the source. -/
def keywordList : List (List Char) :=
  [strL "fragment", strL "grammar", strL "lexer", strL "parser",
   strL "options", strL "tokens", strL "channels", strL "import",
   strL "mode", strL "returns", strL "locals", strL "throws",
   strL "catch", strL "finally", strL "true", strL "false",
   strL "null", strL "skip", strL "channel", strL "type",
   strL "more", strL "popMode", strL "pushMode", strL "EOF"]

def isKeyword (name : List Char) : Bool := keywordList.contains name

/-- The defensive re-check of the lexer pass: does the original content
contain `fragment`, whitespace, the name and a colon anywhere? -/
def fragCheckFrom (name : List Char) (l : List Char) : Bool :=
  match dropLit (strL "fragment") l with
  | none => false
  | some r =>
      match r with
      | c :: rest =>
          if isSpaceJS c then
            match dropLit name (rest.dropWhile isSpaceJS) with
            | some r2 =>
                match r2.dropWhile isSpaceJS with
                | ':' :: _ => true
                | _ => false
            | none => false
          else false
      | [] => false

def fragCheckTest (content name : List Char) : Bool :=
  match content with
  | [] => false
  | c :: rest => fragCheckFrom name (c :: rest) || fragCheckTest rest name

/-- The fragment-rule pass: build a `RuleInfo` for each fragment match
whose name was not already processed. -/
def fragPass (content : List Char) : List RawMatch → List (List Char) → List RuleInfo
  | [], _ => []
  | m :: ms, processed =>
      if processed.contains m.name then fragPass content ms processed
      else
        let ruleText := strL "fragment " ++ m.name ++ strL " :" ++ m.body ++ [';']
        let originalPos := indexOfSubstr content (strL "fragment " ++ m.name)
        mkRuleInfo content RuleType.fragment originalPos m.name ruleText ::
          fragPass content ms (m.name :: processed)

/-- The lexer-rule pass: skip already-processed names, names claimed by a
fragment rule, and names for which the defensive fragment re-check
matches in the original content. -/
def lexPass (content : List Char) (fragmentNames : List (List Char)) :
    List RawMatch → List (List Char) → List RuleInfo
  | [], _ => []
  | m :: ms, processed =>
      if processed.contains m.name || fragmentNames.contains m.name then
        lexPass content fragmentNames ms processed
      else if fragCheckTest content m.name then
        lexPass content fragmentNames ms processed
      else
        let ruleText := m.name ++ strL " :" ++ m.body ++ [';']
        let originalPos := findRulePosition content m.name
        mkRuleInfo content RuleType.lexer originalPos m.name ruleText ::
          lexPass content fragmentNames ms (m.name :: processed)

/-- The parser-rule pass: skip already-processed names and keywords. -/
def parPass (content : List Char) : List RawMatch → List (List Char) → List RuleInfo
  | [], _ => []
  | m :: ms, processed =>
      if processed.contains m.name then parPass content ms processed
      else if isKeyword m.name then parPass content ms processed
      else
        let ruleText := m.name ++ strL " :" ++ m.body ++ [';']
        let originalPos := findRulePosition content m.name
        mkRuleInfo content RuleType.parser originalPos m.name ruleText ::
          parPass content ms (m.name :: processed)

/-- `parseGrammar` from the source: strip comments and header blocks,
then run the fragment, lexer and parser passes in that order against the
cleaned content (positions are recovered from the original content). -/
def parseGrammar (content : List Char) : List RuleInfo :=
  let cleanedContent := removeComments content
  let contentWithoutHeaders := removeHeaderBlocks cleanedContent
  let fuel := contentWithoutHeaders.length + 1
  let fragRules := fragPass content (fragScan fuel contentWithoutHeaders) []
  let fragmentNames := (fragRules.filter (fun r => r.type == RuleType.fragment)).map (·.name)
  let processed1 := fragRules.map (·.name)
  let lexRules := lexPass content fragmentNames (ruleScan isUpperAZ fuel contentWithoutHeaders) processed1
  let processed2 := processed1 ++ lexRules.map (·.name)
  let parRules := parPass content (ruleScan isLowerAZ fuel contentWithoutHeaders) processed2
  fragRules ++ lexRules ++ parRules

/-! Reference extraction (`extractReferences` and its helpers). -/

/-- Drop everything up to and including the first colon; `none` when the
text has no colon. -/
def splitAtColon : List Char → Option (List Char)
  | [] => none
  | ':' :: rest => some rest
  | _ :: rest => splitAtColon rest

/-- Global removal of single- and double-quoted string literals; a quote
with no matching closing quote does not start a literal. -/
def removeStrings : Nat → List Char → List Char
  | 0, l => l
  | _ + 1, [] => []
  | fuel + 1, c :: rest =>
      if c = quoteS then
        if rest.contains quoteS then
          removeStrings fuel ((rest.dropWhile (· != quoteS)).tail)
        else c :: removeStrings fuel rest
      else if c = quoteD then
        if rest.contains quoteD then
          removeStrings fuel ((rest.dropWhile (· != quoteD)).tail)
        else c :: removeStrings fuel rest
      else c :: removeStrings fuel rest

/-- `removeActionBlocks`: characters at positive brace depth are
discarded, as are the braces themselves; the depth is a JavaScript number
and may go negative, in which case ordinary characters are also not
copied (the source copies only at depth exactly zero). -/
def removeActionBlocksAux : Int → List Char → List Char
  | _, [] => []
  | depth, c :: rest =>
      if c = '{' then removeActionBlocksAux (depth + 1) rest
      else if c = '}' then removeActionBlocksAux (depth - 1) rest
      else if depth = 0 then c :: removeActionBlocksAux depth rest
      else removeActionBlocksAux depth rest

def removeActionBlocks (l : List Char) : List Char := removeActionBlocksAux 0 l

/-- Append preserving first-insertion order, as a JavaScript `Set` does. -/
def dedupInsert (acc : List (List Char)) (x : List Char) : List (List Char) :=
  if acc.contains x then acc else acc ++ [x]

/-- The maximal word-character runs of the text, in order.  A run matches
the word-bounded identifier pattern exactly when its first character is a
letter or underscore (a run led by a digit has no word boundary before
any letter inside it). -/
def wordRuns : Nat → List Char → List (List Char)
  | 0, _ => []
  | _ + 1, [] => []
  | fuel + 1, c :: rest =>
      if isIdentChar c then
        (c :: rest.takeWhile isIdentChar) :: wordRuns fuel (rest.dropWhile isIdentChar)
      else wordRuns fuel rest

/-- `extractReferences` from the source: take the rule body after the
first colon, strip strings, comments and action blocks, then collect the
identifier tokens that are neither keywords nor dollar-prefixed, in
first-occurrence order without duplicates. -/
def extractReferences (ruleText : List Char) : List (List Char) :=
  match splitAtColon ruleText with
  | none => []
  | some body =>
      let withoutStrings := removeStrings (body.length + 1) body
      let withoutComments := removeBlockComments (removeLineComments withoutStrings)
      let withoutActions := removeActionBlocks withoutComments
      let runs := wordRuns (withoutActions.length + 1) withoutActions
      runs.foldl (fun acc run =>
        match run with
        | c :: _ =>
            if isIdentStart c ∧ ¬ isKeyword run ∧ c ≠ dollarC then dedupInsert acc run
            else acc
        | [] => acc) []

/-! Reference graph (`buildReferenceGraph`, `updateRuleReferences`). -/

/-- A node of the reference graph.  The JavaScript `Set`s are modelled as
insertion-ordered duplicate-free lists. -/
structure GraphNode where
  name : List Char
  type : RuleType
  references : List (List Char)
  referencedBy : List (List Char)
deriving DecidableEq, Repr

/-- The graph is a JavaScript `Map` keyed by rule name: an

insertion-ordered association list with unique keys. -/
abbrev Graph := List GraphNode

def graphFind (g : Graph) (name : List Char) : Option GraphNode :=
  g.find? (fun n => n.name == name)

/-- `Map.set` semantics for node insertion: overwrite in place, else
append. -/
def graphInsert (g : Graph) (node : GraphNode) : Graph :=
  if g.any (fun n => n.name == node.name) then
    g.map (fun n => if n.name == node.name then node else n)
  else g ++ [node]

/-- Update the node with the given name in place. -/
def graphUpdate (g : Graph) (name : List Char) (f : GraphNode → GraphNode) : Graph :=
  g.map (fun n => if n.name == name then f n else n)

/-- `buildReferenceGraph` from the source: one node per rule, then for
every extracted reference add a forward edge and, when the referenced
node exists, the reverse edge. -/
def buildReferenceGraph (rules : List RuleInfo) : Graph :=
  let init := rules.foldl (fun g rule =>
    graphInsert g ⟨rule.name, rule.type, [], []⟩) []
  rules.foldl (fun g rule =>
    (extractReferences rule.text).foldl (fun g ref =>
      let g := graphUpdate g rule.name (fun n =>
        { n with references := dedupInsert n.references ref })
      if (graphFind g ref).isSome then
        graphUpdate g ref (fun n =>
          { n with referencedBy := dedupInsert n.referencedBy rule.name })
      else g) g) init

/-- `updateRuleReferences`: copy each node's sets back onto the rule. -/
def updateRuleReferences (rules : List RuleInfo) (graph : Graph) : List RuleInfo :=
  rules.map (fun rule =>
    match graphFind graph rule.name with
    | some node => { rule with references := node.references, referencedBy := node.referencedBy }
    | none => rule)

/-! Unused-rule detection (`detectUnusedRules`). -/

structure UnusedRule where
  name : List Char
  type : RuleType
  line : Nat
  column : Nat
  suggestion : List Char
deriving DecidableEq, Repr

def unusedSuggestion (rule : RuleInfo) : List Char :=
  if rule.type == RuleType.fragment then
    strL "Fragment \x27" ++ rule.name ++
      strL "\x27 is never used by other lexer rules. Consider removing it."
  else
    strL "Rule \x27" ++ rule.name ++
      strL "\x27 is never referenced. Consider removing it or making it the start rule."

/-- `detectUnusedRules` from the source: iterate the rules in declaration
order, skipping rules without a graph node, rules matching the start rule
(exactly or case-insensitively), rules that are referenced, and — when no
start rule is configured — the first-declared parser rule. -/
def detectUnusedRules (rules : List RuleInfo) (graph : Graph) (startRule : List Char) :
    List UnusedRule :=
  rules.filterMap (fun rule =>
    match graphFind graph rule.name with
    | none => none
    | some node =>
        if rule.name = startRule ∨ lowerStr rule.name = lowerStr startRule then none
        else if node.referencedBy.length > 0 then none
        else if rule.type = RuleType.parser ∧ startRule = [] ∧
            (rules.find? (fun r => r.type == RuleType.parser)).map (·.name) = some rule.name then
          none
        else
          some { name := rule.name, type := rule.type, line := rule.line,
                 column := rule.column, suggestion := unusedSuggestion rule })

/-! Recursion detection (`detectRecursion`, `dfsFindCycle`). -/

/-- Fuel bound for the depth-first search: every nested call adds a name
to the visited set, and every visitable name is either the start name or
occurs in some node's reference list. -/
def dfsFuel (graph : Graph) : Nat :=
  graph.length + (graph.map (fun n => n.references.length)).sum + 2

/-- `dfsFindCycle` from the source.  The visited set persists across the
whole search (it is threaded through and returned); the path set is
restored on exit from each call, so it is simply passed downwards.  The
loop over the node's references is a fold that short-circuits once a
cycle is found. -/
def dfsFindCycle (graph : Graph) (start : List Char) :
    Nat → List Char → List (List Char) → List (List Char) → Bool × List (List Char)
  | 0, _, visited, _ => (false, visited)
  | fuel + 1, current, visited, path =>
      if path.contains current ∧ current = start ∧ path.length > 1 then (true, visited)
      else if visited.contains current then (false, visited)
      else
        let visited2 := current :: visited
        let path2 := current :: path
        match graphFind graph current with
        | none => (false, visited2)
        | some node =>
            node.references.foldl (fun acc ref =>
              match acc with
              | (true, v) => (true, v)
              | (false, v) =>
                  if ref = start ∧ path2.length > 1 then (true, v)
                  else if v.contains ref then (false, v)
                  else dfsFindCycle graph start fuel ref v path2) (false, visited2)

/-- Does the depth-first search rooted at `name` find a cycle of length
greater than one back to `name`?  (The entry point of the source calls
`dfsFindCycle` with fresh visited and path sets.) -/
def hasCycleFrom (graph : Graph) (name : List Char) : Bool :=
  (dfsFindCycle graph name (dfsFuel graph) name [] []).1

/-- Is the rule directly recursive, i.e. does its own graph node's
reference set contain its name? -/
def isDirectlyRecursive (graph : Graph) (name : List Char) : Bool :=
  match graphFind graph name with
  | some node => node.references.contains name
  | none => false

/-- `detectRecursion` from the source: one pass over the rules collecting
the directly and indirectly recursive names.  A rule whose search finds a
cycle is marked indirect only when it is not already marked direct. -/
def detectRecursionAux (graph : Graph) :
    List RuleInfo → List (List Char) → List (List Char) → List (List Char) × List (List Char)
  | [], direct, indirect => (direct, indirect)
  | rule :: rules, direct, indirect =>
      match graphFind graph rule.name with
      | none => detectRecursionAux graph rules direct indirect
      | some node =>
          let direct2 := if node.references.contains rule.name then dedupInsert direct rule.name else direct
          let indirect2 :=
            if hasCycleFrom graph rule.name ∧ ¬ direct2.contains rule.name then
              dedupInsert indirect rule.name
            else indirect
          detectRecursionAux graph rules direct2 indirect2

def detectRecursion (rules : List RuleInfo) (graph : Graph) :
    List (List Char) × List (List Char) :=
  detectRecursionAux graph rules [] []

/-! Complexity metrics (`calculateRuleDepth`, `splitAlternatives`,
`estimateLookahead`, `calculateComplexityScore`). -/

/-- `calculateRuleDepth`: nesting depth over parentheses and brackets
outside string literals.  The running depth is a JavaScript number and
may go negative; the maximum only ever increases on an opener, and since
it starts at zero it stays non-negative (taking `Int.toNat` of the
incremented depth agrees with the source's `Math.max` because the
maximum is non-negative). -/
def ruleDepthAux : Option Char → Int → Nat → Bool → Char → List Char → Nat
  | _, _, maxDepth, _, _, [] => maxDepth
  | prev, current, maxDepth, inString, sc, c :: rest =>
      if (c = quoteD ∨ c = quoteS) ∧ prev ≠ some backslashC then
        if !inString then ruleDepthAux (some c) current maxDepth true c rest
        else if c = sc then ruleDepthAux (some c) current maxDepth false sc rest
        else ruleDepthAux (some c) current maxDepth inString sc rest
      else if inString then ruleDepthAux (some c) current maxDepth inString sc rest
      else if c = '(' ∨ c = '[' then
        ruleDepthAux (some c) (current + 1) (max maxDepth (current + 1).toNat) inString sc rest
      else if c = ')' ∨ c = ']' then
        ruleDepthAux (some c) (current - 1) maxDepth inString sc rest
      else ruleDepthAux (some c) current maxDepth inString sc rest

def calculateRuleDepth (ruleText : List Char) : Nat :=
  ruleDepthAux none 0 0 false ' ' ruleText

/-- JavaScript `replace(semicolon-at-end, empty)`: drop one trailing
semicolon if present. -/
def stripTrailingSemi (l : List Char) : List Char :=
  match l.reverse with
  | ';' :: rest => rest.reverse
  | _ => l

/-- `splitAlternatives` body scan: split on top-level pipes, tracking
strings (escape-aware) and the combined paren/bracket/brace depth (an
`Int`, as the JavaScript counter may go negative).  The final alternative
is pushed only when non-blank, trimmed, with one trailing semicolon
removed. -/
def splitAltsAux : Option Char → Int → Bool → Char → List Char → List Char → List (List Char)
  | _, _, _, _, current, [] =>
      if trimL current ≠ [] then [stripTrailingSemi (trimL current)] else []
  | prev, depth, inString, sc, current, c :: rest =>
      let isQuote := (c = quoteD ∨ c = quoteS) ∧ prev ≠ some backslashC
      let inString2 := if isQuote then (if !inString then true else if c = sc then false else inString) else inString
      let sc2 := if isQuote ∧ !inString then c else sc
      if !inString2 then
        let depth2 :=
          if c = '(' ∨ c = '[' ∨ c = '{' then depth + 1
          else if c = ')' ∨ c = ']' ∨ c = '}' then depth - 1
          else depth
        if c = '|' ∧ depth2 = 0 then
          trimL current :: splitAltsAux (some c) depth2 inString2 sc2 [] rest
        else splitAltsAux (some c) depth2 inString2 sc2 (current ++ [c]) rest
      else splitAltsAux (some c) depth inString2 sc2 (current ++ [c]) rest

/-- `splitAlternatives` from the source: the whole text is returned as a
single alternative when it has no colon. -/
def splitAlternatives (ruleText : List Char) : List (List Char) :=
  match splitAtColon ruleText with
  | none => [ruleText]
  | some body => splitAltsAux none 0 false ' ' [] body

/-- The first-token pattern of an alternative: optional leading
whitespace, then a quoted string literal or a bare identifier; the match
is trimmed, leaving just the token.  (Source name: `extractPrefix`.) -/
def extractFirstToken (alternative : List Char) : List Char :=
  match alternative.dropWhile isSpaceJS with
  | c :: r =>
      if c = quoteS then
        if r.contains quoteS then c :: (r.takeWhile (· != quoteS)) ++ [quoteS] else []
      else if c = quoteD then
        if r.contains quoteD then c :: (r.takeWhile (· != quoteD)) ++ [quoteD] else []
      else if isIdentStart c then c :: r.takeWhile isIdentChar
      else []
  | [] => []

/-- First-insertion-order deduplication (the element list of a
JavaScript `Set` built from a list). -/
def dedupKeepFirst (l : List (List Char)) : List (List Char) :=
  l.foldl dedupInsert []

/-- `estimateLookahead` from the source. -/
def estimateLookahead (ruleText : List Char) : Nat :=
  let lookahead := 1
  let alternatives := splitAlternatives ruleText
  let lookahead :=
    if alternatives.length > 1 then
      let prefixTokens := alternatives.map (fun alt => lowerStr (extractFirstToken alt))
      if (dedupKeepFirst prefixTokens).length < alternatives.length then
        min (lookahead + 2) 5
      else lookahead
    else lookahead
  let lookahead :=
    if ruleText.contains '?' ∨ ruleText.contains '*' then lookahead + 1 else lookahead
  let depth := calculateRuleDepth ruleText
  let lookahead := if depth > 2 then lookahead + depth / 2 else lookahead
  min lookahead 10

inductive ComplexityScore
  | low
  | medium
  | high
  | critical
deriving DecidableEq, Repr

instance : BEq ComplexityScore := ⟨fun a b => decide (a = b)⟩

/-- `Required<AnalysisOptions>` from the source.  Thresholds are modelled
as naturals (the configuration values are non-negative integers). -/
structure AnalysisOptionsR where
  detectUnusedRules : Bool
  analyzeComplexity : Bool
  detectPerformanceIssues : Bool
  detectAmbiguity : Bool
  startRule : List Char
  highComplexityThreshold : Nat
  criticalComplexityThreshold : Nat
deriving DecidableEq, Repr

/-- `DEFAULT_ANALYSIS_OPTIONS` from the types module. -/
def defaultAnalysisOptions : AnalysisOptionsR :=
  ⟨true, true, true, true, [], 50, 100⟩

/-- `calculateComplexityScore` from the source.  The medium threshold is
`value >= highComplexityThreshold / 2` in JavaScript's exact-rational
division; over the integers this is precisely `2 * value ≥
highComplexityThreshold`. -/
def calculateComplexityScore (depth alternatives referenceCount : Nat)
    (directlyRecursive indirectlyRecursive : Bool) (lookahead : Nat)
    (options : AnalysisOptionsR) : Nat × ComplexityScore :=
  let value := depth * 5 + alternatives * 3 + referenceCount * 2 + lookahead * 4
    + (if directlyRecursive then 15 else 0) + (if indirectlyRecursive then 25 else 0)
  let score :=
    if value ≥ options.criticalComplexityThreshold then ComplexityScore.critical
    else if value ≥ options.highComplexityThreshold then ComplexityScore.high
    else if 2 * value ≥ options.highComplexityThreshold then ComplexityScore.medium
    else ComplexityScore.low
  (value, score)

structure ComplexityMetrics where
  name : List Char
  type : RuleType
  line : Nat
  depth : Nat
  alternatives : Nat
  referenceCount : Nat
  directlyRecursive : Bool
  indirectlyRecursive : Bool
  lookahead : Nat
  score : ComplexityScore
  complexityValue : Nat
deriving DecidableEq, Repr

/-- Stable sort by descending complexity value (JavaScript's sort with
the subtraction comparator is stable). -/
def insertByValueDesc (m : ComplexityMetrics) : List ComplexityMetrics → List ComplexityMetrics
  | [] => [m]
  | x :: xs =>
      if x.complexityValue > m.complexityValue then x :: insertByValueDesc m xs
      else m :: x :: xs

def sortByValueDesc (l : List ComplexityMetrics) : List ComplexityMetrics :=
  l.foldr insertByValueDesc []

/-- `calculateComplexityMetrics` from the source. -/
def calculateComplexityMetrics (rules : List RuleInfo) (graph : Graph)
    (options : AnalysisOptionsR) : List ComplexityMetrics :=
  let recursionInfo := detectRecursion rules graph
  let metrics := rules.map (fun rule =>
    let depth := calculateRuleDepth rule.text
    let referenceCount := match graphFind graph rule.name with
      | some node => node.references.length
      | none => 0
    let lookahead := estimateLookahead rule.text
    let dir := recursionInfo.1.contains rule.name
    let ind := recursionInfo.2.contains rule.name
    let vs := calculateComplexityScore depth rule.alternativeCount referenceCount dir ind lookahead options
    { name := rule.name, type := rule.type, line := rule.line, depth := depth,
      alternatives := rule.alternativeCount, referenceCount := referenceCount,
      directlyRecursive := dir, indirectlyRecursive := ind, lookahead := lookahead,
      score := vs.2, complexityValue := vs.1 })
  sortByValueDesc metrics

/-! Performance issues, ambiguity hints and the summary. -/

inductive Severity
  | info
  | warning
  | error
  | critical
deriving DecidableEq, Repr

inductive IssueCategory
  | backtracking
  | lookahead
  | recursion
  | memory
  | ambiguity
deriving DecidableEq, Repr

structure PerformanceIssue where
  rule : List Char
  type : RuleType
  line : Nat
  column : Nat
  severity : Severity
  issue : List Char
  description : List Char
  suggestion : List Char
  category : IssueCategory
deriving DecidableEq, Repr

/-- Decimal rendering of a natural number (template-string
interpolation of a non-negative integer). -/
def natToDecAux : Nat → Nat → List Char
  | 0, _ => []
  | fuel + 1, n =>
      if n < 10 then [Char.ofNat (48 + n)]
      else natToDecAux fuel (n / 10) ++ [Char.ofNat (48 + n % 10)]

def natToDec (n : Nat) : List Char := natToDecAux (n + 1) n

/-- The sort rank of a severity (`severityOrder` in the source). -/
def severityOrder : Severity → Nat
  | Severity.critical => 0
  | Severity.error => 1
  | Severity.warning => 2
  | Severity.info => 3

/-- The issues the source emits for one rule given its metrics, in the
source's order of checks. -/
def issuesForRule (rule : RuleInfo) (m : ComplexityMetrics) : List PerformanceIssue :=
  (if m.alternatives > 5 ∧ m.lookahead > 2 then
    [{ rule := rule.name, type := rule.type, line := rule.line, column := rule.column,
       severity := Severity.warning, issue := strL "High backtracking potential",
       description := strL "Rule has " ++ natToDec m.alternatives ++
         strL " alternatives with lookahead of " ++ natToDec m.lookahead ++
         strL ", which may cause excessive backtracking.",
       suggestion := strL "Consider reordering alternatives by frequency or refactoring to reduce ambiguity.",
       category := IssueCategory.backtracking }]
   else []) ++
  (if m.lookahead ≥ 4 then
    [{ rule := rule.name, type := rule.type, line := rule.line, column := rule.column,
       severity := Severity.warning, issue := strL "High lookahead requirement",
       description := strL "Rule requires estimated lookahead of " ++ natToDec m.lookahead ++
         strL " tokens.",
       suggestion := strL "Consider left-factoring common prefixes or using syntactic predicates.",
       category := IssueCategory.lookahead }]
   else []) ++
  (if m.indirectlyRecursive ∧ m.depth > 3 then
    [{ rule := rule.name, type := rule.type, line := rule.line, column := rule.column,
       severity := Severity.info, issue := strL "Deep indirect recursion",
       description := strL "Rule has indirect recursion with depth " ++ natToDec m.depth ++
         strL ", which may cause deep stack usage.",
       suggestion := strL "Consider flattening the recursion or adding iteration limits.",
       category := IssueCategory.recursion }]
   else []) ++
  (if m.depth > 5 then
    [{ rule := rule.name, type := rule.type, line := rule.line, column := rule.column,
       severity := Severity.info, issue := strL "Deep nesting",
       description := strL "Rule has nesting depth of " ++ natToDec m.depth ++
         strL ", which increases memory usage.",
       suggestion := strL "Consider breaking down into simpler sub-rules.",
       category := IssueCategory.memory }]
   else []) ++
  (if m.score = ComplexityScore.critical then
    [{ rule := rule.name, type := rule.type, line := rule.line, column := rule.column,
       severity := Severity.error, issue := strL "Critical complexity",
       description := strL "Rule has critical complexity score (" ++ natToDec m.complexityValue ++
         strL "). This may severely impact parse performance.",
       suggestion := strL "This rule should be refactored to reduce complexity. Consider breaking it into smaller rules.",
       category := IssueCategory.backtracking }]
   else [])

/-- Stable ascending sort by severity rank. -/
def insertBySevAsc (m : PerformanceIssue) : List PerformanceIssue → List PerformanceIssue
  | [] => [m]
  | x :: xs =>
      if severityOrder x.severity < severityOrder m.severity then x :: insertBySevAsc m xs
      else m :: x :: xs

def sortBySevAsc (l : List PerformanceIssue) : List PerformanceIssue :=
  l.foldr insertBySevAsc []

/-- `detectPerformanceIssues` from the source: the first metrics entry
with the rule's name is used; rules without metrics are skipped. -/
def detectPerformanceIssues (rules : List RuleInfo) (_graph : Graph)
    (complexity : List ComplexityMetrics) : List PerformanceIssue :=
  let issues := (rules.map (fun rule =>
    match complexity.find? (fun c => c.name == rule.name) with
    | some m => issuesForRule rule m
    | none => [])).flatten
  sortBySevAsc issues

structure AmbiguityHint where
  rule : List Char
  line : Nat
  alternativeIndices : List Nat
  commonPrefix : List (List Char)
  description : List Char
deriving DecidableEq, Repr

/-- `Map`-grouping of alternative indices by (lower-cased) first token,
preserving first-insertion order of the keys. -/
def groupInsertIdx (groups : List (List Char × List Nat)) (key : List Char) (idx : Nat) :
    List (List Char × List Nat) :=
  if groups.any (fun p => p.1 == key) then
    groups.map (fun p => if p.1 == key then (p.1, p.2 ++ [idx]) else p)
  else groups ++ [(key, [idx])]

def joinCommaSpace : List (List Char) → List Char
  | [] => []
  | [x] => x
  | x :: y :: rest => x ++ strL ", " ++ joinCommaSpace (y :: rest)

/-- The ambiguity hints the source emits for one rule. -/
def hintsForRule (rule : RuleInfo) : List AmbiguityHint :=
  if rule.type != RuleType.parser then []
  else
    let alternatives := splitAlternatives rule.text
    if alternatives.length < 2 then []
    else
      let groups := alternatives.enum.foldl
        (fun gs p => groupInsertIdx gs (lowerStr (extractFirstToken p.2)) p.1) []
      (groups.filter (fun p => p.2.length > 1 ∧ p.1 ≠ [])).map (fun p =>
        { rule := rule.name, line := rule.line, alternativeIndices := p.2,
          commonPrefix := [p.1],
          description := strL "Alternatives " ++
            joinCommaSpace (p.2.map (fun i => natToDec (i + 1))) ++
            strL " start with the same token \x27" ++ p.1 ++
            strL "\x27, which may cause ambiguity." })

/-- `detectAmbiguityHints` from the source (parser rules only). -/
def detectAmbiguityHints (rules : List RuleInfo) (_grammarContent : List Char) :
    List AmbiguityHint :=
  (rules.map hintsForRule).flatten

structure SeverityCounts where
  info : Nat
  warning : Nat
  error : Nat
  critical : Nat
deriving DecidableEq, Repr

def bumpSeverity (c : SeverityCounts) : Severity → SeverityCounts
  | Severity.info => { c with info := c.info + 1 }
  | Severity.warning => { c with warning := c.warning + 1 }
  | Severity.error => { c with error := c.error + 1 }
  | Severity.critical => { c with critical := c.critical + 1 }

structure AnalysisSummary where
  totalRules : Nat
  parserRules : Nat
  lexerRules : Nat
  fragmentRules : Nat
  unusedRules : Nat
  highComplexityRules : Nat
  performanceIssues : Nat
  ambiguityHints : Nat
  issuesBySeverity : SeverityCounts
deriving DecidableEq, Repr

/-- `calculateSummary` from the source: unused rules are folded into the
warning tally and ambiguity hints into the info tally. -/
def calculateSummary (rules : List RuleInfo) (unusedRules : List UnusedRule)
    (complexity : List ComplexityMetrics) (performanceIssues : List PerformanceIssue)
    (ambiguityHints : List AmbiguityHint) : AnalysisSummary :=
  let parserRules := (rules.filter (fun r => r.type == RuleType.parser)).length
  let lexerRules := (rules.filter (fun r => r.type == RuleType.lexer)).length
  let fragmentRules := (rules.filter (fun r => r.type == RuleType.fragment)).length
  let highComplexityRules := (complexity.filter
    (fun c => c.score == ComplexityScore.high || c.score == ComplexityScore.critical)).length
  let base := performanceIssues.foldl (fun acc i => bumpSeverity acc i.severity) ⟨0, 0, 0, 0⟩
  let issuesBySeverity := { base with
    warning := base.warning + unusedRules.length,
    info := base.info + ambiguityHints.length }
  { totalRules := rules.length, parserRules := parserRules, lexerRules := lexerRules,
    fragmentRules := fragmentRules, unusedRules := unusedRules.length,
    highComplexityRules := highComplexityRules,
    performanceIssues := performanceIssues.length,
    ambiguityHints := ambiguityHints.length,
    issuesBySeverity := issuesBySeverity }

/-! Grammar hashing (`hashGrammar`). -/

/-- Wrap an integer to signed 32-bit (the effect of JavaScript's `|0`
family of coercions, here produced by `hash & hash`). -/
def toInt32 (n : Int) : Int :=
  if n % 4294967296 ≥ 2147483648 then n % 4294967296 - 4294967296
  else n % 4294967296

/-- One step of the rolling hash: `(hash << 5) - hash + code`, coerced
back to a signed 32-bit integer.  The shift itself operates on 32 bits. -/
def hashStep (h : Int) (code : Nat) : Int :=
  toInt32 (toInt32 (h * 32) - h + code)

def hexDigitChar (n : Nat) : Char :=
  if n < 10 then Char.ofNat (48 + n) else Char.ofNat (87 + n)

def natToHexAux : Nat → Nat → List Char
  | 0, _ => []
  | fuel + 1, n =>
      if n < 16 then [hexDigitChar n]
      else natToHexAux fuel (n / 16) ++ [hexDigitChar (n % 16)]

def natToHex (n : Nat) : List Char := natToHexAux (n + 1) n

/-- `Number.prototype.toString(16)` for integers: a negative value is
rendered as a minus sign followed by the hexadecimal digits of its
absolute value. -/
def intToHexString (n : Int) : List Char :=
  if n < 0 then '-' :: natToHex (-n).toNat else natToHex n.toNat

/-- `hashGrammar` from the source: fold the rolling hash over the UTF-16
code units of the content (equal to `Char.toNat` on the ASCII inputs
considered here) and render the signed result in base 16. -/
def hashGrammar (content : List Char) : List Char :=
  intToHexString (content.foldl (fun h c => hashStep h c.toNat) 0)

/-! The analysis entry point and the result cache. -/

/-- `AnalysisOptions` from the types module (all fields optional). -/
structure AnalysisOptions where
  detectUnusedRules : Option Bool := none
  analyzeComplexity : Option Bool := none
  detectPerformanceIssues : Option Bool := none
  detectAmbiguity : Option Bool := none
  startRule : Option (List Char) := none
  highComplexityThreshold : Option Nat := none
  criticalComplexityThreshold : Option Nat := none
deriving DecidableEq, Repr

/-- The option merge `{ ...DEFAULT_ANALYSIS_OPTIONS, ...options }`. -/
def mergeOptions (o : AnalysisOptions) : AnalysisOptionsR :=
  { detectUnusedRules := o.detectUnusedRules.getD true,
    analyzeComplexity := o.analyzeComplexity.getD true,
    detectPerformanceIssues := o.detectPerformanceIssues.getD true,
    detectAmbiguity := o.detectAmbiguity.getD true,
    startRule := o.startRule.getD [],
    highComplexityThreshold := o.highComplexityThreshold.getD 50,
    criticalComplexityThreshold := o.criticalComplexityThreshold.getD 100 }

/-- `AnalysisResult` from the source.  The wall-clock `duration` field is
an environment measurement with no bearing on any claim and is omitted;
`timestamp` is the clock value passed in by the caller. -/
structure AnalysisResult where
  summary : AnalysisSummary
  rules : List RuleInfo
  unusedRules : List UnusedRule
  complexity : List ComplexityMetrics
  performanceIssues : List PerformanceIssue
  ambiguityHints : List AmbiguityHint
  timestamp : Int
  grammarHash : List Char
deriving DecidableEq, Repr

/-- The cache-free body of `analyze`: parse, build the graph, run the
enabled analyzers and aggregate the summary. -/
def analyzeResult (grammarContent : List Char) (options : AnalysisOptions) (now : Int) :
    AnalysisResult :=
  let mergedOptions := mergeOptions options
  let grammarHash := hashGrammar grammarContent
  let parsed := parseGrammar grammarContent
  let referenceGraph := buildReferenceGraph parsed
  let rules := updateRuleReferences parsed referenceGraph
  let unusedRules :=
    if mergedOptions.detectUnusedRules then
      detectUnusedRules rules referenceGraph mergedOptions.startRule
    else []
  let complexity :=
    if mergedOptions.analyzeComplexity then
      calculateComplexityMetrics rules referenceGraph mergedOptions
    else []
  let performanceIssues :=
    if mergedOptions.detectPerformanceIssues then
      detectPerformanceIssues rules referenceGraph complexity
    else []
  let ambiguityHints :=
    if mergedOptions.detectAmbiguity then
      detectAmbiguityHints rules grammarContent
    else []
  let summary := calculateSummary rules unusedRules complexity performanceIssues ambiguityHints
  { summary := summary, rules := rules, unusedRules := unusedRules,
    complexity := complexity, performanceIssues := performanceIssues,
    ambiguityHints := ambiguityHints, timestamp := now, grammarHash := grammarHash }

structure CacheEntry where
  result : AnalysisResult
  hash : List Char
  timestamp : Int
deriving DecidableEq, Repr

/-- The analyzer's cache: a JavaScript `Map` in insertion order. -/
abbrev Cache := List (List Char × CacheEntry)

def CACHE_TTL : Int := 5 * 60 * 1000

def mapGet (c : Cache) (k : List Char) : Option CacheEntry :=
  (c.find? (fun p => p.1 == k)).map (·.2)

/-- `Map.set`: overwrite in place keeping the key's position, else
append. -/
def mapSet (c : Cache) (k : List Char) (v : CacheEntry) : Cache :=
  if c.any (fun p => p.1 == k) then
    c.map (fun p => if p.1 == k then (k, v) else p)
  else c ++ [(k, v)]

/-- `Map.delete`: remove the (unique) entry with the key. -/
def mapDelete : Cache → List Char → Cache
  | [], _ => []
  | p :: rest, k => if p.1 == k then rest else p :: mapDelete rest k

/-- `getFromCache` from the source: an entry older than the TTL is
deleted and the lookup reports a miss.  The possibly mutated cache is
returned alongside the lookup result. -/
def getFromCache (cache : Cache) (now : Int) (hash : List Char) :
    Option AnalysisResult × Cache :=
  match mapGet cache hash with
  | none => (none, cache)
  | some entry =>
      if now - entry.timestamp > CACHE_TTL then (none, mapDelete cache hash)
      else (some entry.result, cache)

/-- `setCache` from the source: store the entry, and when the map then
holds more than ten entries delete the first-inserted key (the source
skips the delete when the iterator yields a falsy key, i.e. the empty
string). -/
def setCache (cache : Cache) (now : Int) (hash : List Char) (result : AnalysisResult) :
    Cache :=
  let cache2 := mapSet cache hash ⟨result, hash, now⟩
  if cache2.length > 10 then
    match cache2 with
    | [] => cache2
    | (k, _) :: _ => if k = [] then cache2 else mapDelete cache2 k
  else cache2

/-- `analyze` with its cache, as explicit state passing: look up by the
content hash, and on a miss compute the result and store it. -/
def analyzeWithCache (cache : Cache) (now : Int) (grammarContent : List Char)
    (options : AnalysisOptions) : AnalysisResult × Cache :=
  let grammarHash := hashGrammar grammarContent
  match getFromCache cache now grammarHash with
  | (some cached, cache2) => (cached, cache2)
  | (none, cache2) =>
      let result := analyzeResult grammarContent options now
      (result, setCache cache2 now grammarHash result)

/-! Concrete inputs used by the claim theorems and their witnesses. -/

/-- The start-rule-exemption grammar of the specification's test list. -/
def grammarUnusedW : List Char :=
  strL "expr: term ;\nterm: factor ;\nfactor: ID ;\nunused: NUMBER ;\nID:[a-z]+;\nNUMBER:[0-9]+;"

def optionsStartExprW : AnalysisOptions := { startRule := some (strL "expr") }

def parsedUnusedW : List RuleInfo := parseGrammar grammarUnusedW

def graphUnusedW : Graph := buildReferenceGraph parsedUnusedW

def rulesUnusedW : List RuleInfo := updateRuleReferences parsedUnusedW graphUnusedW

def dummyRule : RuleInfo :=
  { name := [], type := RuleType.parser, line := 0, column := 0, endLine := 0,
    endColumn := 0, text := [], alternativeCount := 0, references := [], referencedBy := [] }

/-- The `unused` rule of the start-rule-exemption grammar (declaration
index 5: the two lexer rules precede the four parser rules). -/
def ruleUnusedW : RuleInfo := rulesUnusedW.getD 5 dummyRule

/-- The indirect-recursion grammar of the specification's test list. -/
def grammarCycleW : List Char := strL "a: b;\nb: c;\nc: a;"

def parsedCycleW : List RuleInfo := parseGrammar grammarCycleW

def graphCycleW : Graph := buildReferenceGraph parsedCycleW

def rulesCycleW : List RuleInfo := updateRuleReferences parsedCycleW graphCycleW

def ruleCycleW : RuleInfo := rulesCycleW.getD 0 dummyRule

def dummyMetric : ComplexityMetrics :=
  { name := [], type := RuleType.parser, line := 0, depth := 0, alternatives := 0,
    referenceCount := 0, directlyRecursive := false, indirectlyRecursive := false,
    lookahead := 0, score := ComplexityScore.low, complexityValue := 0 }

def metricCycleW : ComplexityMetrics :=
  (calculateComplexityMetrics rulesCycleW graphCycleW defaultAnalysisOptions).getD 0 dummyMetric

def entryStaleW : CacheEntry :=
  { result := analyzeResult [] {} 0, hash := strL "h", timestamp := 0 }

def cacheStaleW : Cache := [(strL "h", entryStaleW)]

/-! Theorems.  Helper lemmas come first; each claim is settled by one
named theorem (with a witness or counterexample where required). -/

theorem toInt32_emod (a : Int) : toInt32 a % 4294967296 = a % 4294967296 := by
  unfold toInt32; split <;> omega

theorem toInt32_congr {a b : Int} (h : a % 4294967296 = b % 4294967296) :
    toInt32 a = toInt32 b := by
  unfold toInt32; rw [h]

theorem hashStep_eq (h : Int) (c : Nat) : hashStep h c = toInt32 (31 * h + c) := by
  unfold hashStep
  apply toInt32_congr
  have h32 := toInt32_emod (h * 32)
  omega

/-- C10: the `grammarHash` is the base-16 rendering of the signed 32-bit
rolling hash `hash := toInt32 (hash * 31 + code)` folded over the raw
input's code units, and since the wrapped value can be negative the
rendered string can begin with a minus sign — as it does for the input
`aaaaaaa`. -/
theorem hashGrammar_spec :
    (∀ content : List Char,
        hashGrammar content =
          intToHexString (content.foldl (fun h c => toInt32 (31 * h + c.toNat)) 0)) ∧
    hashGrammar (strL "aaaaaaa") = strL "-49b8ffff" ∧
    (hashGrammar (strL "aaaaaaa")).head? = some '-' := by
  refine ⟨?_, by decide, by decide⟩
  intro content
  unfold hashGrammar
  simp only [hashStep_eq]

theorem length_updateRuleReferences (rules : List RuleInfo) (g : Graph) :
    (updateRuleReferences rules g).length = rules.length := by
  simp [updateRuleReferences]

/-- C8: `analyze` is total (the embedding is a total function) and always
returns a result whose summary counts the returned rules; on the empty
input and on a comment-only input it reports zero rules, for every
option set and clock value. -/
theorem analyze_total_spec :
    (∀ (content : List Char) (options : AnalysisOptions) (now : Int),
        (analyzeResult content options now).summary.totalRules =
          (analyzeResult content options now).rules.length) ∧
    (∀ (options : AnalysisOptions) (now : Int),
        (analyzeResult [] options now).rules.length = 0 ∧
        (analyzeResult [] options now).summary.totalRules = 0) ∧
    (∀ (options : AnalysisOptions) (now : Int),
        (analyzeResult (strL "// just a comment") options now).rules.length = 0 ∧
        (analyzeResult (strL "// just a comment") options now).summary.totalRules = 0) := by
  have htot : ∀ (content : List Char) (options : AnalysisOptions) (now : Int),
      (analyzeResult content options now).summary.totalRules =
        (analyzeResult content options now).rules.length := by
    intro content options now
    simp [analyzeResult, calculateSummary]
  have hlen : ∀ (content : List Char) (options : AnalysisOptions) (now : Int),
      (analyzeResult content options now).rules.length = (parseGrammar content).length := by
    intro content options now
    simp [analyzeResult, length_updateRuleReferences]
  refine ⟨htot, fun options now => ?_, fun options now => ?_⟩
  · have h0 : (parseGrammar []).length = 0 := by decide
    exact ⟨(hlen [] options now).trans h0,
      (htot [] options now).trans ((hlen [] options now).trans h0)⟩
  · have h0 : (parseGrammar (strL "// just a comment")).length = 0 := by decide
    exact ⟨(hlen _ options now).trans h0,
      (htot _ options now).trans ((hlen _ options now).trans h0)⟩

theorem countAlts_topLevel (l : List Char) :
    ∀ (prev : Option Char) (depth : Int) (inString : Bool) (sc : Char),
      countAltsAux prev depth inString sc l =
        (topLevelCharsAux prev depth inString sc l).count '|' := by
  induction l with
  | nil => intro prev depth inString sc; simp [countAltsAux, topLevelCharsAux]
  | cons c rest ih =>
      intro prev depth inString sc
      simp only [countAltsAux, topLevelCharsAux]
      by_cases hq : (c = quoteD ∨ c = quoteS) ∧ prev ≠ some backslashC
      · simp only [if_pos hq]
        by_cases hs : !inString
        · simp [hs, ih]
        · by_cases he : c = sc <;> simp [hs, he, ih]
      · simp only [if_neg hq]
        by_cases hs : inString
        · simp [hs, ih]
        · simp only [if_neg hs]
          have hemit :
              (if c = '|' ∧ (if c = '(' then depth + 1 else if c = ')' then depth - 1 else depth) = 0
               then 1 else 0) =
                List.count '|'
                  (if (if c = '(' then depth + 1 else if c = ')' then depth - 1 else depth) = 0
                   then [c] else []) := by
            by_cases hd : (if c = '(' then depth + 1 else if c = ')' then depth - 1 else depth) = 0
            · simp [hd, List.count_singleton']
            · simp [hd]
          rw [List.count_append, ih, hemit]

/-- C1 (amended): `alternativeCount` is one plus the number of `|`
characters lying at parenthesis depth zero outside string literals —
brackets and braces are not treated as nesting — and the two example
rules both yield an alternative count of 2. -/
theorem countAlternatives_amended :
    (∀ ruleText : List Char,
        countAlternatives ruleText = 1 + (topLevelChars ruleText).count '|') ∧
    (parseGrammar (strL "stmt: \x27return\x27 expr | \x27return\x27 ;")).map
        (fun r => (r.name, r.alternativeCount)) = [(strL "stmt", 2)] ∧
    (parseGrammar (strL "factor: NUMBER | \x27(\x27 expr \x27)\x27 ;")).map
        (fun r => (r.name, r.alternativeCount)) = [(strL "factor", 2)] := by
  refine ⟨?_, by decide, by decide⟩
  intro ruleText
  unfold countAlternatives topLevelChars
  rw [countAlts_topLevel]

/-- C1 counterexample: for the rule text `K :[a|b];` the code counts the
pipe inside the character-class brackets (the scan tracks only
parentheses), giving 2 where the claim's bracket-and-brace-aware count
gives 1; the parsed rule indeed reports `alternativeCount = 2`. -/
theorem countAlternatives_bracket_cex :
    countAlternatives (strL "K :[a|b];") = 2 ∧
    countAlternativesClaim (strL "K :[a|b];") = 1 ∧
    (parseGrammar (strL "K :[a|b];")).map (fun r => (r.name, r.alternativeCount)) =
      [(strL "K", 2)] := by
  decide

theorem hasStarSlash_tail {c : Char} {l : List Char}
    (h : hasStarSlash (c :: l) = false) : hasStarSlash l = false := by
  cases l with
  | nil => rfl
  | cons d rest =>
      simp only [hasStarSlash, Bool.or_eq_false_iff] at h
      exact h.2

theorem removeBlockCommentsAux_noClose :
    ∀ (fuel : Nat) (l : List Char), hasStarSlash l = false →
      removeBlockCommentsAux fuel l = l := by
  intro fuel
  induction fuel with
  | zero => intro l _; rfl
  | succ fuel ih =>
      intro l h
      match l with
      | [] => rfl
      | [c] => rfl
      | c :: d :: rest =>
          have h2 : hasStarSlash (d :: rest) = false := hasStarSlash_tail h
          have h3 : hasStarSlash rest = false := hasStarSlash_tail h2
          by_cases hc : c = '/' && d = '*'
          · simp [removeBlockCommentsAux, hc, h3]
          · simp [removeBlockCommentsAux, hc, ih (d :: rest) h2]

/-- C2 (amended): an unterminated block comment is not removed — the
comment pattern requires a closing delimiter, so text containing no
closing delimiter at all passes through the block-comment pass
unchanged — and rule definitions textually after an unterminated block
comment are still discovered. -/
theorem removeComments_unterminated :
    (∀ l : List Char, hasStarSlash l = false → removeBlockComments l = l) ∧
    removeComments (strL "/* note\nstmt : A ;") = strL "/* note\nstmt : A ;" ∧
    (parseGrammar (strL "/* note\nstmt : A ;")).map (fun r => r.name) = [strL "stmt"] := by
  refine ⟨?_, by decide, by decide⟩
  intro l h
  exact removeBlockCommentsAux_noClose (l.length + 1) l h

/-- C2 witness: a concrete text with no closing delimiter is returned
unchanged by the block-comment pass. -/
theorem removeComments_unterminated_witness :
    hasStarSlash (strL "/* plain text") = false ∧
    removeBlockComments (strL "/* plain text") = strL "/* plain text" :=
  ⟨by decide, removeComments_unterminated.1 (strL "/* plain text") (by decide)⟩

/-- C2 counterexample: on the input `/* oops` followed by a rule, the
comment stripper removes nothing (contradicting "removes everything from
the opener to the end of the input") and the rule after the unterminated
opener is discovered by the parse (contradicting "not discovered"). -/
theorem removeComments_unterminated_cex :
    removeComments (strL "/* oops\nexpr : ID ;") = strL "/* oops\nexpr : ID ;" ∧
    (parseGrammar (strL "/* oops\nexpr : ID ;")).map (fun r => r.name) = [strL "expr"] := by
  decide

/-- C6: the lookahead estimate is the base value 1, plus 2 when at least
two top-level alternatives have a duplicate lower-cased first-token
prefix, plus 1 when the text contains a `?` or `*`, plus half the
nesting depth when that depth exceeds 2, clamped to 10.  (The source's
intermediate `min (1 + 2) 5` equals 3, so the duplicate-prefix
contribution is exactly 2.) -/
theorem estimateLookahead_spec (ruleText : List Char) :
    estimateLookahead ruleText =
      min (1
        + (if (splitAlternatives ruleText).length > 1 ∧
              (dedupKeepFirst ((splitAlternatives ruleText).map
                  (fun alt => lowerStr (extractFirstToken alt)))).length <
                (splitAlternatives ruleText).length
           then 2 else 0)
        + (if ruleText.contains '?' ∨ ruleText.contains '*' then 1 else 0)
        + (if calculateRuleDepth ruleText > 2 then calculateRuleDepth ruleText / 2 else 0))
        10 := by
  unfold estimateLookahead
  by_cases h1 : (splitAlternatives ruleText).length > 1
  · by_cases h2 : (dedupKeepFirst ((splitAlternatives ruleText).map
        (fun alt => lowerStr (extractFirstToken alt)))).length < (splitAlternatives ruleText).length
    · by_cases h3 : '?' ∈ ruleText ∨ '*' ∈ ruleText <;>
        by_cases h4 : calculateRuleDepth ruleText > 2 <;>
          simp [h1, h2, h3, h4]
    · by_cases h3 : '?' ∈ ruleText ∨ '*' ∈ ruleText <;>
        by_cases h4 : calculateRuleDepth ruleText > 2 <;>
          simp [h1, h2, h3, h4]
  · have h2 : ¬((splitAlternatives ruleText).length > 1 ∧
        (dedupKeepFirst ((splitAlternatives ruleText).map
            (fun alt => lowerStr (extractFirstToken alt)))).length <
          (splitAlternatives ruleText).length) := fun hc => h1 hc.1
    by_cases h3 : '?' ∈ ruleText ∨ '*' ∈ ruleText <;>
      by_cases h4 : calculateRuleDepth ruleText > 2 <;>
        simp [h1, h2, h3, h4]

theorem mem_insertByValueDesc {a m : ComplexityMetrics} {l : List ComplexityMetrics} :
    a ∈ insertByValueDesc m l ↔ a = m ∨ a ∈ l := by
  induction l with
  | nil => simp [insertByValueDesc]
  | cons x xs ih =>
      simp only [insertByValueDesc]
      split
      · simp only [List.mem_cons, ih]
        tauto
      · simp

theorem mem_sortByValueDesc {a : ComplexityMetrics} {l : List ComplexityMetrics} :
    a ∈ sortByValueDesc l ↔ a ∈ l := by
  induction l with
  | nil => simp [sortByValueDesc]
  | cons x xs ih =>
      show a ∈ insertByValueDesc x (sortByValueDesc xs) ↔ _
      rw [mem_insertByValueDesc, ih]
      simp

/-- C5: every complexity metrics entry produced by the calculator has
`complexityValue = depth*5 + alternatives*3 + referenceCount*2 +
lookahead*4 + 15·[directlyRecursive] + 25·[indirectlyRecursive]`, and a
score of critical/high/medium/low by comparison with the thresholds
(`2·value ≥ high` being exactly `value ≥ high/2` in the source's exact
division); the default thresholds are 50 and 100. -/
theorem calculateComplexityMetrics_spec (rules : List RuleInfo) (graph : Graph)
    (options : AnalysisOptionsR) (m : ComplexityMetrics)
    (hm : m ∈ calculateComplexityMetrics rules graph options) :
    m.complexityValue =
      m.depth * 5 + m.alternatives * 3 + m.referenceCount * 2 + m.lookahead * 4
        + (if m.directlyRecursive then 15 else 0)
        + (if m.indirectlyRecursive then 25 else 0) ∧
    m.score =
      (if m.complexityValue ≥ options.criticalComplexityThreshold then ComplexityScore.critical
       else if m.complexityValue ≥ options.highComplexityThreshold then ComplexityScore.high
       else if 2 * m.complexityValue ≥ options.highComplexityThreshold then ComplexityScore.medium
       else ComplexityScore.low) ∧
    defaultAnalysisOptions.highComplexityThreshold = 50 ∧
    defaultAnalysisOptions.criticalComplexityThreshold = 100 := by
  unfold calculateComplexityMetrics at hm
  rw [mem_sortByValueDesc] at hm
  rcases List.mem_map.mp hm with ⟨rule, _, heq⟩
  subst heq
  refine ⟨?_, ?_, rfl, rfl⟩
  · simp [calculateComplexityScore]
  · simp [calculateComplexityScore]

/-- C5 witness: the first metrics entry of the cycle grammar satisfies
the formula and classification. -/
theorem calculateComplexityMetrics_spec_witness :
    metricCycleW ∈ calculateComplexityMetrics rulesCycleW graphCycleW defaultAnalysisOptions ∧
    (metricCycleW.complexityValue =
      metricCycleW.depth * 5 + metricCycleW.alternatives * 3 + metricCycleW.referenceCount * 2
        + metricCycleW.lookahead * 4
        + (if metricCycleW.directlyRecursive then 15 else 0)
        + (if metricCycleW.indirectlyRecursive then 25 else 0) ∧
     metricCycleW.score =
      (if metricCycleW.complexityValue ≥ defaultAnalysisOptions.criticalComplexityThreshold then
        ComplexityScore.critical
       else if metricCycleW.complexityValue ≥ defaultAnalysisOptions.highComplexityThreshold then
        ComplexityScore.high
       else if 2 * metricCycleW.complexityValue ≥ defaultAnalysisOptions.highComplexityThreshold then
        ComplexityScore.medium
       else ComplexityScore.low) ∧
     defaultAnalysisOptions.highComplexityThreshold = 50 ∧
     defaultAnalysisOptions.criticalComplexityThreshold = 100) :=
  ⟨by decide,
   calculateComplexityMetrics_spec rulesCycleW graphCycleW defaultAnalysisOptions metricCycleW
     (by decide)⟩

theorem mapGet_eq_none_of_forall {c : Cache} {k : List Char}
    (h : ∀ p ∈ c, p.1 ≠ k) : mapGet c k = none := by
  unfold mapGet
  have : c.find? (fun p => p.1 == k) = none := by
    rw [List.find?_eq_none]
    intro p hp
    simpa using h p hp
  rw [this]
  rfl

theorem mapGet_mapDelete_self {c : Cache} {k : List Char}
    (hnodup : (c.map Prod.fst).Nodup) : mapGet (mapDelete c k) k = none := by
  induction c with
  | nil => rfl
  | cons p rest ih =>
      simp only [List.map_cons, List.nodup_cons] at hnodup
      simp only [mapDelete]
      by_cases hp : p.1 == k
      · rw [if_pos hp]
        apply mapGet_eq_none_of_forall
        intro q hq hqk
        have hk : p.1 = k := by simpa using hp
        exact hnodup.1 (by rw [hk, ← hqk]; exact List.mem_map_of_mem Prod.fst hq)
      · rw [if_neg hp]
        unfold mapGet
        simp only [List.find?_cons, hp]
        exact ih hnodup.2

/-- C9: a cache lookup that finds an entry older than the TTL deletes it
and reports a miss — after the lookup no entry with that key remains. -/
theorem getFromCache_stale (cache : Cache) (now : Int) (hash : List Char)
    (entry : CacheEntry)
    (hnodup : (cache.map Prod.fst).Nodup)
    (hget : mapGet cache hash = some entry)
    (hstale : now - entry.timestamp > CACHE_TTL) :
    (getFromCache cache now hash).1 = none ∧
    mapGet (getFromCache cache now hash).2 hash = none := by
  have hg : getFromCache cache now hash = (none, mapDelete cache hash) := by
    unfold getFromCache
    rw [hget]
    simp [hstale]
  rw [hg]
  exact ⟨rfl, mapGet_mapDelete_self hnodup⟩

/-- C9 witness: a one-entry cache whose entry is 300001 ms old is
cleared by the lookup. -/
theorem getFromCache_stale_witness :
    (cacheStaleW.map Prod.fst).Nodup ∧
    mapGet cacheStaleW (strL "h") = some entryStaleW ∧
    (300001 : Int) - entryStaleW.timestamp > CACHE_TTL ∧
    ((getFromCache cacheStaleW 300001 (strL "h")).1 = none ∧
      mapGet (getFromCache cacheStaleW 300001 (strL "h")).2 (strL "h") = none) :=
  ⟨by decide, rfl, by decide,
   getFromCache_stale cacheStaleW 300001 (strL "h") entryStaleW (by decide) rfl (by decide)⟩

theorem natToHex_ne_nil (n : Nat) : natToHex n ≠ [] := by
  unfold natToHex natToHexAux
  split <;> simp

theorem hashGrammar_ne_nil (content : List Char) : hashGrammar content ≠ [] := by
  unfold hashGrammar intToHexString
  split
  · simp
  · exact natToHex_ne_nil _

theorem mapSet_length_le (c : Cache) (k : List Char) (v : CacheEntry) :
    (mapSet c k v).length ≤ c.length + 1 := by
  unfold mapSet
  split
  · simp
  · simp

theorem mapSet_keys_sub {c : Cache} {k : List Char} {v : CacheEntry} {p : List Char × CacheEntry}
    (hp : p ∈ mapSet c k v) : p.1 ∈ c.map Prod.fst ∨ p.1 = k := by
  unfold mapSet at hp
  split at hp
  · rcases List.mem_map.mp hp with ⟨q, hq, hqp⟩
    by_cases hqk : q.1 == k
    · right
      rw [if_pos hqk] at hqp
      rw [← hqp]
    · left
      rw [if_neg hqk] at hqp
      exact hqp ▸ List.mem_map_of_mem Prod.fst hq
  · rcases List.mem_append.mp hp with h | h
    · exact Or.inl (List.mem_map_of_mem Prod.fst h)
    · right
      simp only [List.mem_singleton] at h
      rw [h]

theorem mapSet_of_no_key {c : Cache} {k : List Char} {v : CacheEntry}
    (h : mapGet c k = none) : mapSet c k v = c ++ [(k, v)] := by
  unfold mapGet at h
  have hfind : c.find? (fun p => p.1 == k) = none := by
    cases hf : c.find? (fun p => p.1 == k) with
    | none => rfl
    | some q => rw [hf] at h; simp at h
  unfold mapSet
  have hany : c.any (fun p => p.1 == k) = false := by
    rw [List.any_eq_false]
    intro p hp
    have := List.find?_eq_none.mp hfind p hp
    simpa using this
  rw [if_neg (by simp [hany])]

theorem mapDelete_cons_self (k : List Char) (v : CacheEntry) (rest : Cache) :
    mapDelete ((k, v) :: rest) k = rest := by
  simp [mapDelete]

theorem mapDelete_sub {c : Cache} {k : List Char} {p : List Char × CacheEntry}
    (hp : p ∈ mapDelete c k) : p ∈ c := by
  induction c with
  | nil => simp [mapDelete] at hp
  | cons q rest ih =>
      simp only [mapDelete] at hp
      by_cases hq : q.1 == k
      · rw [if_pos hq] at hp
        exact List.mem_cons_of_mem q hp
      · rw [if_neg hq] at hp
        rcases List.mem_cons.mp hp with h | h
        · exact h ▸ List.mem_cons_self q rest
        · exact List.mem_cons_of_mem q (ih h)

theorem mapDelete_length_le (c : Cache) (k : List Char) :
    (mapDelete c k).length ≤ c.length := by
  induction c with
  | nil => simp [mapDelete]
  | cons q rest ih =>
      simp only [mapDelete]
      split
      · simp
      · simpa using Nat.succ_le_succ ih

/-- After `setCache` the map holds at most ten entries, provided it held
at most ten before and no key (stored or incoming) is the empty string. -/
theorem setCache_length (cache : Cache) (now : Int) (hash : List Char)
    (result : AnalysisResult)
    (hkeys : ∀ p ∈ cache, p.1 ≠ ([] : List Char)) (hhash : hash ≠ [])
    (hsize : cache.length ≤ 10) :
    (setCache cache now hash result).length ≤ 10 := by
  unfold setCache
  have hle := mapSet_length_le cache hash ⟨result, hash, now⟩
  by_cases hbig : (mapSet cache hash ⟨result, hash, now⟩).length > 10
  · rw [if_pos hbig]
    match hm : mapSet cache hash ⟨result, hash, now⟩ with
    | [] => rw [hm] at hbig; simp at hbig
    | (k, v) :: rest =>
        have hk : k ≠ [] := by
          have hmem : ((k, v) : List Char × CacheEntry) ∈ mapSet cache hash ⟨result, hash, now⟩ := by
            rw [hm]; exact List.mem_cons_self _ _
          rcases mapSet_keys_sub hmem with h | h
          · rcases List.mem_map.mp h with ⟨q, hq, hqk⟩
            intro hknil
            exact hkeys q hq (by simpa [hknil] using hqk)
          · intro hknil
            apply hhash
            rw [← h]
            exact hknil
        rw [hm] at hbig hle
        show List.length
            (if k = [] then (k, v) :: rest else mapDelete ((k, v) :: rest) k) ≤ 10
        rw [if_neg hk, mapDelete_cons_self]
        simp only [List.length_cons] at hbig hle
        omega
  · rw [if_neg hbig]
    omega

/-- When a store on a full (ten-entry) cache introduces a fresh key, the
first-inserted key is evicted: the remaining keys are the old keys
without the first, followed by the new hash. -/
theorem setCache_evict (cache : Cache) (now : Int) (hash : List Char)
    (result : AnalysisResult)
    (hget : mapGet cache hash = none) (hlen : cache.length = 10)
    (hkeys : ∀ p ∈ cache, p.1 ≠ ([] : List Char)) :
    (setCache cache now hash result).map Prod.fst =
      (cache.map Prod.fst).drop 1 ++ [hash] := by
  cases cache with
  | nil => simp at hlen
  | cons p rest =>
      simp only [setCache]
      rw [mapSet_of_no_key hget]
      have hbig : ((p :: rest) ++
          [(hash, (⟨result, hash, now⟩ : CacheEntry))]).length > 10 := by
        rw [List.length_append]
        simp only [List.length_cons, List.length_nil] at hlen ⊢
        omega
      rw [if_pos hbig]
      obtain ⟨k, v⟩ := p
      have hk : k ≠ [] := hkeys ⟨k, v⟩ (List.mem_cons_self _ _)
      show List.map Prod.fst
          (if k = [] then ((k, v) :: rest) ++ [(hash, (⟨result, hash, now⟩ : CacheEntry))]
           else mapDelete (((k, v) :: rest) ++ [(hash, (⟨result, hash, now⟩ : CacheEntry))]) k) = _
      rw [if_neg hk, List.cons_append, mapDelete_cons_self]
      simp

/-- C7: after every `analyze` call the cache holds at most ten entries
(given the invariant that its keys are non-empty, which every stored
`hashGrammar` key satisfies); a lookup finding an entry older than the
TTL recomputes the result afresh; and when a store would make the map
exceed ten entries the first-inserted key is evicted, leaving the
remaining keys followed by the new hash. -/
theorem analyzeWithCache_bound (cache : Cache) (now : Int) (content : List Char)
    (options : AnalysisOptions)
    (hkeys : ∀ p ∈ cache, p.1 ≠ ([] : List Char))
    (hsize : cache.length ≤ 10) :
    ((analyzeWithCache cache now content options).2.length ≤ 10) ∧
    (∀ entry, mapGet cache (hashGrammar content) = some entry →
        now - entry.timestamp > CACHE_TTL →
        (analyzeWithCache cache now content options).1 = analyzeResult content options now) ∧
    (mapGet cache (hashGrammar content) = none → cache.length = 10 →
        ((analyzeWithCache cache now content options).2).map Prod.fst =
          (cache.map Prod.fst).drop 1 ++ [hashGrammar content]) := by
  cases hget : mapGet cache (hashGrammar content) with
  | none =>
      have hg : getFromCache cache now (hashGrammar content) = (none, cache) := by
        unfold getFromCache; rw [hget]
      have hachain : analyzeWithCache cache now content options =
          (analyzeResult content options now,
            setCache cache now (hashGrammar content) (analyzeResult content options now)) := by
        simp only [analyzeWithCache, hg]
      refine ⟨?_, ?_, ?_⟩
      · rw [hachain]
        exact setCache_length cache now _ _ hkeys (hashGrammar_ne_nil content) hsize
      · intro entry hentry
        exact absurd hentry (by simp)
      · intro _ hlen
        rw [hachain]
        exact setCache_evict cache now _ _ hget hlen hkeys
  | some entry0 =>
      by_cases hstale : now - entry0.timestamp > CACHE_TTL
      · have hg : getFromCache cache now (hashGrammar content) =
            (none, mapDelete cache (hashGrammar content)) := by
          unfold getFromCache; rw [hget]; simp [hstale]
        have hachain : analyzeWithCache cache now content options =
            (analyzeResult content options now,
              setCache (mapDelete cache (hashGrammar content)) now (hashGrammar content)
                (analyzeResult content options now)) := by
          simp only [analyzeWithCache, hg]
        refine ⟨?_, ?_, ?_⟩
        · rw [hachain]
          exact setCache_length _ now _ _
            (fun p hp => hkeys p (mapDelete_sub hp))
            (hashGrammar_ne_nil content)
            (le_trans (mapDelete_length_le cache _) hsize)
        · intro entry hentry _
          rw [hachain]
        · intro hnone
          exact absurd hnone (by simp)
      · have hg : getFromCache cache now (hashGrammar content) =
            (some entry0.result, cache) := by
          unfold getFromCache; rw [hget]; simp [hstale]
        have hachain : analyzeWithCache cache now content options = (entry0.result, cache) := by
          simp only [analyzeWithCache, hg]
        refine ⟨?_, ?_, ?_⟩
        · rw [hachain]
          exact hsize
        · intro entry hentry hst
          cases hentry
          exact absurd hst hstale
        · intro hnone
          exact absurd hnone (by simp)

/-- C7 witness: starting from the empty cache, an `analyze` call keeps
the cache within the ten-entry bound (all hypotheses hold trivially). -/
theorem analyzeWithCache_bound_witness :
    (∀ p ∈ ([] : Cache), p.1 ≠ ([] : List Char)) ∧
    ([] : Cache).length ≤ 10 ∧
    (((analyzeWithCache [] 0 [] {}).2.length ≤ 10) ∧
     (∀ entry, mapGet [] (hashGrammar []) = some entry →
        (0 : Int) - entry.timestamp > CACHE_TTL →
        (analyzeWithCache [] 0 [] {}).1 = analyzeResult [] {} 0) ∧
     (mapGet [] (hashGrammar []) = none → ([] : Cache).length = 10 →
        ((analyzeWithCache [] 0 [] {}).2).map Prod.fst =
          (([] : Cache).map Prod.fst).drop 1 ++ [hashGrammar []])) :=
  ⟨by simp, by simp, analyzeWithCache_bound [] 0 [] {} (by simp) (by simp)⟩

theorem mem_dedupInsert {l : List (List Char)} {x n : List Char} :
    n ∈ dedupInsert l x ↔ n ∈ l ∨ n = x := by
  unfold dedupInsert
  split
  · rename_i hc
    constructor
    · exact Or.inl
    · rintro (h | rfl)
      · exact h
      · simpa using hc
  · simp

theorem detectUnusedRules_name_mem (rules : List RuleInfo) (graph : Graph)
    (startRule : List Char) (r : RuleInfo)
    (hnodup : (rules.map (fun x => x.name)).Nodup) (hr : r ∈ rules) :
    r.name ∈ (detectUnusedRules rules graph startRule).map (fun u => u.name) ↔
      ∃ node, graphFind graph r.name = some node ∧ node.referencedBy = [] ∧
        lowerStr r.name ≠ lowerStr startRule ∧
        ¬(r.type = RuleType.parser ∧ startRule = [] ∧
          (rules.find? (fun x => x.type == RuleType.parser)).map (fun x => x.name) =
            some r.name) := by
  unfold detectUnusedRules
  rw [List.mem_map]
  constructor
  · rintro ⟨u, hu, huname⟩
    rcases List.mem_filterMap.mp hu with ⟨rule, hrule, hfu⟩
    cases hnode : graphFind graph rule.name with
    | none => rw [hnode] at hfu; exact absurd hfu (by simp)
    | some node =>
        simp only [hnode] at hfu
        by_cases h1 : rule.name = startRule ∨ lowerStr rule.name = lowerStr startRule
        · rw [if_pos h1] at hfu; exact absurd hfu (by simp)
        · rw [if_neg h1] at hfu
          by_cases h2 : node.referencedBy.length > 0
          · rw [if_pos h2] at hfu; exact absurd hfu (by simp)
          · rw [if_neg h2] at hfu
            by_cases h3 : rule.type = RuleType.parser ∧ startRule = [] ∧
                (rules.find? (fun x => x.type == RuleType.parser)).map (fun x => x.name) =
                  some rule.name
            · rw [if_pos h3] at hfu; exact absurd hfu (by simp)
            · rw [if_neg h3] at hfu
              simp only [Option.some.injEq] at hfu
              have huname2 : u.name = rule.name := by rw [← hfu]
              have hname : rule.name = r.name := by rw [← huname2, huname]
              have hruler : rule = r :=
                List.inj_on_of_nodup_map hnodup hrule hr hname
              subst hruler
              refine ⟨node, hnode, ?_, ?_, ?_⟩
              · exact List.length_eq_zero.mp (by omega)
              · intro hlow
                exact h1 (Or.inr hlow)
              · exact h3
  · rintro ⟨node, hnode, hrefs, hlow, hfirst⟩
    refine ⟨{ name := r.name, type := r.type, line := r.line, column := r.column,
              suggestion := unusedSuggestion r }, ?_, rfl⟩
    apply List.mem_filterMap.mpr
    refine ⟨r, hr, ?_⟩
    simp only [hnode]
    rw [if_neg ?_, if_neg ?_, if_neg hfirst]
    · intro hgt
      rw [hrefs] at hgt
      simp at hgt
    · rintro (heq | heq)
      · exact hlow (by rw [heq])
      · exact hlow heq

/-- C3: a rule is reported unused exactly when its graph node exists,
its `referencedBy` set is empty, its name is not case-insensitively
equal to the configured start rule, and it is not the first-declared
parser rule in the case where the start rule is empty; in particular the
start-rule-exemption grammar with `startRule = "expr"` reports `unused`
and not `expr`. -/
theorem detectUnusedRules_spec (rules : List RuleInfo) (graph : Graph)
    (startRule : List Char) (r : RuleInfo)
    (hnodup : (rules.map (fun x => x.name)).Nodup) (hr : r ∈ rules) :
    (r.name ∈ (detectUnusedRules rules graph startRule).map (fun u => u.name) ↔
      ∃ node, graphFind graph r.name = some node ∧ node.referencedBy = [] ∧
        lowerStr r.name ≠ lowerStr startRule ∧
        ¬(r.type = RuleType.parser ∧ startRule = [] ∧
          (rules.find? (fun x => x.type == RuleType.parser)).map (fun x => x.name) =
            some r.name)) ∧
    strL "unused" ∈
      ((analyzeResult grammarUnusedW optionsStartExprW 0).unusedRules.map (fun u => u.name)) ∧
    strL "expr" ∉
      ((analyzeResult grammarUnusedW optionsStartExprW 0).unusedRules.map (fun u => u.name)) :=
  ⟨detectUnusedRules_name_mem rules graph startRule r hnodup hr, by decide, by decide⟩

/-- C3 witness: the `unused` rule of the start-rule-exemption grammar
satisfies the characterization. -/
theorem detectUnusedRules_spec_witness :
    ((rulesUnusedW.map (fun x => x.name)).Nodup ∧ ruleUnusedW ∈ rulesUnusedW) ∧
    (ruleUnusedW.name ∈
        (detectUnusedRules rulesUnusedW graphUnusedW (strL "expr")).map (fun u => u.name) ↔
      ∃ node, graphFind graphUnusedW ruleUnusedW.name = some node ∧ node.referencedBy = [] ∧
        lowerStr ruleUnusedW.name ≠ lowerStr (strL "expr") ∧
        ¬(ruleUnusedW.type = RuleType.parser ∧ strL "expr" = [] ∧
          (rulesUnusedW.find? (fun x => x.type == RuleType.parser)).map (fun x => x.name) =
            some ruleUnusedW.name)) :=
  ⟨⟨by decide, by decide⟩,
   (detectUnusedRules_spec rulesUnusedW graphUnusedW (strL "expr") ruleUnusedW
      (by decide) (by decide)).1⟩

theorem isDirectlyRecursive_of_none {graph : Graph} {name : List Char}
    (hnode : graphFind graph name = none) :
    isDirectlyRecursive graph name = false := by
  unfold isDirectlyRecursive
  rw [hnode]

theorem hasCycleFrom_of_none {graph : Graph} {name : List Char}
    (hnode : graphFind graph name = none) :
    hasCycleFrom graph name = false := by
  unfold hasCycleFrom
  rcases Nat.exists_eq_succ_of_ne_zero (n := dfsFuel graph)
      (by unfold dfsFuel; omega) with ⟨k, hk⟩
  rw [hk]
  simp [dfsFindCycle, hnode]

theorem detectRecursionAux_direct_mem (graph : Graph) :
    ∀ (rules : List RuleInfo) (d i : List (List Char)) (n : List Char),
      n ∈ (detectRecursionAux graph rules d i).1 ↔
        n ∈ d ∨ (isDirectlyRecursive graph n = true ∧ ∃ r ∈ rules, r.name = n) := by
  intro rules
  induction rules with
  | nil => intro d i n; simp [detectRecursionAux]
  | cons rule rules ih =>
      intro d i n
      cases hnode : graphFind graph rule.name with
      | none =>
          simp only [detectRecursionAux, hnode]
          rw [ih]
          have hdirf : isDirectlyRecursive graph rule.name = false :=
            isDirectlyRecursive_of_none hnode
          constructor
          · rintro (h | ⟨hd2, r2, hr2, hn⟩)
            · exact Or.inl h
            · exact Or.inr ⟨hd2, r2, List.mem_cons_of_mem _ hr2, hn⟩
          · rintro (h | ⟨hd2, r2, hr2, hn⟩)
            · exact Or.inl h
            · rcases List.mem_cons.mp hr2 with rfl | hr3
              · rw [← hn, hdirf] at hd2
                cases hd2
              · exact Or.inr ⟨hd2, r2, hr3, hn⟩
      | some node =>
          simp only [detectRecursionAux, hnode]
          have hdir : isDirectlyRecursive graph rule.name = node.references.contains rule.name := by
            unfold isDirectlyRecursive
            rw [hnode]
          cases hc : node.references.contains rule.name with
          | true =>
              rw [hc] at hdir
              simp only [hc, if_true]
              rw [ih]
              constructor
              · rintro (h | ⟨hd2, r2, hr2, hn⟩)
                · rcases mem_dedupInsert.mp h with h2 | rfl
                  · exact Or.inl h2
                  · exact Or.inr ⟨hdir, rule, List.mem_cons_self _ _, rfl⟩
                · exact Or.inr ⟨hd2, r2, List.mem_cons_of_mem _ hr2, hn⟩
              · rintro (h | ⟨hd2, r2, hr2, hn⟩)
                · exact Or.inl (mem_dedupInsert.mpr (Or.inl h))
                · rcases List.mem_cons.mp hr2 with rfl | hr3
                  · exact Or.inl (mem_dedupInsert.mpr (Or.inr hn.symm))
                  · exact Or.inr ⟨hd2, r2, hr3, hn⟩
          | false =>
              rw [hc] at hdir
              simp only [hc, Bool.false_eq_true, if_false]
              rw [ih]
              constructor
              · rintro (h | ⟨hd2, r2, hr2, hn⟩)
                · exact Or.inl h
                · exact Or.inr ⟨hd2, r2, List.mem_cons_of_mem _ hr2, hn⟩
              · rintro (h | ⟨hd2, r2, hr2, hn⟩)
                · exact Or.inl h
                · rcases List.mem_cons.mp hr2 with rfl | hr3
                  · rw [← hn, hdir] at hd2
                    cases hd2
                  · exact Or.inr ⟨hd2, r2, hr3, hn⟩

theorem detectRecursionAux_indirect_mem (graph : Graph) :
    ∀ (rules : List RuleInfo) (d i : List (List Char)) (n : List Char),
      (∀ x ∈ d, isDirectlyRecursive graph x = true) →
      (n ∈ (detectRecursionAux graph rules d i).2 ↔
        n ∈ i ∨ ((hasCycleFrom graph n = true ∧ isDirectlyRecursive graph n = false) ∧
          ∃ r ∈ rules, r.name = n)) := by
  intro rules
  induction rules with
  | nil => intro d i n _; simp [detectRecursionAux]
  | cons rule rules ih =>
      intro d i n hd
      cases hnode : graphFind graph rule.name with
      | none =>
          simp only [detectRecursionAux, hnode]
          rw [ih d i n hd]
          have hcy : hasCycleFrom graph rule.name = false := hasCycleFrom_of_none hnode
          constructor
          · rintro (h | ⟨hp, r2, hr2, hn⟩)
            · exact Or.inl h
            · exact Or.inr ⟨hp, r2, List.mem_cons_of_mem _ hr2, hn⟩
          · rintro (h | ⟨hp, r2, hr2, hn⟩)
            · exact Or.inl h
            · rcases List.mem_cons.mp hr2 with rfl | hr3
              · rw [← hn, hcy] at hp
                cases hp.1
              · exact Or.inr ⟨hp, r2, hr3, hn⟩
      | some node =>
          simp only [detectRecursionAux, hnode]
          have hdir : isDirectlyRecursive graph rule.name = node.references.contains rule.name := by
            unfold isDirectlyRecursive
            rw [hnode]
          cases hc : node.references.contains rule.name with
          | true =>
              rw [hc] at hdir
              simp only [hc, if_true]
              have hd2 : ∀ x ∈ dedupInsert d rule.name, isDirectlyRecursive graph x = true := by
                intro x hx
                rcases mem_dedupInsert.mp hx with hx2 | rfl
                · exact hd x hx2
                · exact hdir
              have hcont : rule.name ∈ dedupInsert d rule.name :=
                mem_dedupInsert.mpr (Or.inr rfl)
              rw [if_neg (by simp [hcont])]
              rw [ih _ _ _ hd2]
              constructor
              · rintro (h | ⟨hp, r2, hr2, hn⟩)
                · exact Or.inl h
                · exact Or.inr ⟨hp, r2, List.mem_cons_of_mem _ hr2, hn⟩
              · rintro (h | ⟨hp, r2, hr2, hn⟩)
                · exact Or.inl h
                · rcases List.mem_cons.mp hr2 with rfl | hr3
                  · rw [← hn, hdir] at hp
                    cases hp.2
                  · exact Or.inr ⟨hp, r2, hr3, hn⟩
          | false =>
              rw [hc] at hdir
              simp only [hc, Bool.false_eq_true, if_false]
              by_cases hcyc : hasCycleFrom graph rule.name = true
              · by_cases hmem : rule.name ∈ d
                · have hcontr := hd _ hmem
                  rw [hdir] at hcontr
                  cases hcontr
                · rw [if_pos ⟨hcyc, by simp [hmem]⟩]
                  rw [ih _ _ _ hd]
                  constructor
                  · rintro (h | ⟨hp, r2, hr2, hn⟩)
                    · rcases mem_dedupInsert.mp h with h2 | rfl
                      · exact Or.inl h2
                      · exact Or.inr ⟨⟨hcyc, hdir⟩, rule, List.mem_cons_self _ _, rfl⟩
                    · exact Or.inr ⟨hp, r2, List.mem_cons_of_mem _ hr2, hn⟩
                  · rintro (h | ⟨hp, r2, hr2, hn⟩)
                    · exact Or.inl (mem_dedupInsert.mpr (Or.inl h))
                    · rcases List.mem_cons.mp hr2 with rfl | hr3
                      · exact Or.inl (mem_dedupInsert.mpr (Or.inr hn.symm))
                      · exact Or.inr ⟨hp, r2, hr3, hn⟩
              · rw [if_neg (fun hcond => hcyc hcond.1)]
                rw [ih _ _ _ hd]
                constructor
                · rintro (h | ⟨hp, r2, hr2, hn⟩)
                  · exact Or.inl h
                  · exact Or.inr ⟨hp, r2, List.mem_cons_of_mem _ hr2, hn⟩
                · rintro (h | ⟨hp, r2, hr2, hn⟩)
                  · exact Or.inl h
                  · rcases List.mem_cons.mp hr2 with rfl | hr3
                    · rw [hn] at hcyc
                      exact absurd hp.1 hcyc
                    · exact Or.inr ⟨hp, r2, hr3, hn⟩

/-- C4: a rule is marked directly recursive exactly when its own name is
in its node's reference set; it is marked indirectly recursive exactly
when the depth-first search from the rule finds a cycle of length
greater than one back to it and the rule is not directly recursive; no
name is ever marked both.  For the grammar `a: b; b: c; c: a;` all three
rules are indirectly recursive and none is directly recursive. -/
theorem detectRecursion_spec (rules : List RuleInfo) (graph : Graph) (r : RuleInfo)
    (hr : r ∈ rules) :
    (r.name ∈ (detectRecursion rules graph).1 ↔
        isDirectlyRecursive graph r.name = true) ∧
    (r.name ∈ (detectRecursion rules graph).2 ↔
        (hasCycleFrom graph r.name = true ∧ isDirectlyRecursive graph r.name = false)) ∧
    (∀ n, ¬(n ∈ (detectRecursion rules graph).1 ∧ n ∈ (detectRecursion rules graph).2)) ∧
    (detectRecursion rulesCycleW graphCycleW).1 = [] ∧
    (detectRecursion rulesCycleW graphCycleW).2 = [strL "a", strL "b", strL "c"] ∧
    (calculateComplexityMetrics rulesCycleW graphCycleW defaultAnalysisOptions).map
        (fun m => (m.name, m.directlyRecursive, m.indirectlyRecursive)) =
      [(strL "a", false, true), (strL "b", false, true), (strL "c", false, true)] := by
  refine ⟨?_, ?_, ?_, by decide, by decide, by decide⟩
  · rw [show detectRecursion rules graph = detectRecursionAux graph rules [] [] from rfl,
      detectRecursionAux_direct_mem]
    constructor
    · rintro (h | ⟨hd2, _, _, _⟩)
      · cases h
      · exact hd2
    · intro hdir
      exact Or.inr ⟨hdir, r, hr, rfl⟩
  · rw [show detectRecursion rules graph = detectRecursionAux graph rules [] [] from rfl,
      detectRecursionAux_indirect_mem graph rules [] [] r.name (by simp)]
    constructor
    · rintro (h | ⟨hp, _, _, _⟩)
      · cases h
      · exact hp
    · intro hp
      exact Or.inr ⟨hp, r, hr, rfl⟩
  · intro n hn
    rcases hn with ⟨h1, h2⟩
    rw [show detectRecursion rules graph = detectRecursionAux graph rules [] [] from rfl,
      detectRecursionAux_direct_mem] at h1
    rw [show detectRecursion rules graph = detectRecursionAux graph rules [] [] from rfl,
      detectRecursionAux_indirect_mem graph rules [] [] n (by simp)] at h2
    rcases h1 with h1 | ⟨hd1, _⟩
    · cases h1
    · rcases h2 with h2 | ⟨⟨_, hd2⟩, _⟩
      · cases h2
      · rw [hd1] at hd2
        cases hd2

/-- C4 witness: the `a` rule of the cycle grammar satisfies both
characterizations. -/
theorem detectRecursion_spec_witness :
    ruleCycleW ∈ rulesCycleW ∧
    ((ruleCycleW.name ∈ (detectRecursion rulesCycleW graphCycleW).1 ↔
        isDirectlyRecursive graphCycleW ruleCycleW.name = true) ∧
     (ruleCycleW.name ∈ (detectRecursion rulesCycleW graphCycleW).2 ↔
        (hasCycleFrom graphCycleW ruleCycleW.name = true ∧
          isDirectlyRecursive graphCycleW ruleCycleW.name = false))) :=
  ⟨by decide,
   ⟨(detectRecursion_spec rulesCycleW graphCycleW ruleCycleW (by decide)).1,
    (detectRecursion_spec rulesCycleW graphCycleW ruleCycleW (by decide)).2.1⟩⟩

end GrammarAnalysis
